import Mathlib

set_option maxRecDepth 8192

/-!
Verification development for the `benchcached` repository: an in-memory
key-value store (`src/server/benchcached.c`) and a standalone benchmark
variant of the same open-addressing hash table (`src/unnamed/part_000`).

C strings (`char *`) are modelled as `List Nat` byte lists (NUL-free,
bytes < 256 on real inputs).  The slot arrays are modelled as total
functions `Nat → kv_entry`; only indices below the capacity are ever
probed, because every probe index is masked with `capacity - 1`.
Machine arithmetic on `uint64_t` is `Nat` with explicit `% 2 ^ 64`.
-/

/-- One slot of the open-addressing table (`kv_entry` in both C files).
`key`/`val` model the `char *` fields; the all-zero entry (`key = []`,
`used = false`, `deleted = false`) models a `calloc`/`memset`-zeroed slot
whose pointers are NULL. -/
structure kv_entry where
  key : List Nat
  val : List Nat
  used : Bool
  deleted : Bool
deriving DecidableEq

/-- Point update of a slot array: `ent[p] = e`. -/
def upd (ent : Nat → kv_entry) (p : Nat) (e : kv_entry) : Nat → kv_entry :=
  fun q => if q = p then e else ent q

namespace Server

/-- `#define TABLE_SIZE 1024` in `src/server/benchcached.c`. -/
def TABLE_SIZE : Nat := 1024

/-- `#define FNV_OFFSET 14695981039346656037UL`. -/
def FNV_OFFSET : Nat := 14695981039346656037

/-- `#define FNV_PRIME 1099511628211UL`. -/
def FNV_PRIME : Nat := 1099511628211

/-- Modulus of `uint64_t` arithmetic. -/
def U64 : Nat := 2 ^ 64

/-- The byte loop of `fnv_hash` (benchcached.c lines 38-45): for each byte,
`hash ^= (uint64_t)(unsigned char)(*p); hash *= FNV_PRIME;`.  The
`(unsigned char)` cast is `% 256` (a no-op on genuine byte values). -/
def fnv_loop (hash : Nat) : List Nat → Nat
  | [] => hash
  | b :: p => fnv_loop (((hash ^^^ (b % 256)) * FNV_PRIME) % U64) p

/-- `uint64_t fnv_hash(const char *x)` of the server. -/
def fnv_hash (x : List Nat) : Nat := fnv_loop FNV_OFFSET x

/-- The server's hash table: a fixed array `kv_entry entries[TABLE_SIZE]`. -/
structure hashmap where
  entries : Nat → kv_entry

/-- A zeroed slot, as produced by `memset(hm->entries, 0, ...)`. -/
def zero_entry : kv_entry := ⟨[], [], false, false⟩

/-- `hashmap_create()`: all slots zeroed (allocation assumed to succeed). -/
def hashmap_create : hashmap := ⟨fun _ => zero_entry⟩

/-- The probe loop of `hashmap_set` (benchcached.c lines 70-87).  `fuel`
counts the remaining iterations of `for (i = 0; i < TABLE_SIZE; i++)`
(initially `TABLE_SIZE`, so `fuel + i = TABLE_SIZE` throughout); the
returned `Bool` records whether the loop stored anything (the C function
returns `void`; a `false` result is the silent drop on exhaustion).
Note the C code tests `!used || deleted` (slot reuse) *before* comparing
keys, and `free`s nothing it does not overwrite. -/
def set_loop (ent : Nat → kv_entry) (key val : List Nat) (idx : Nat) :
    Nat → Nat → (Nat → kv_entry) × Bool
  | 0, _ => (ent, false)
  | fuel+1, i =>
    let probe := (idx + i) &&& (TABLE_SIZE - 1)
    let e := ent probe
    if e.used = false ∨ e.deleted = true then
      (upd ent probe ⟨key, val, true, false⟩, true)
    else if e.key = key then
      (upd ent probe { e with val := val }, true)
    else
      set_loop ent key val idx fuel (i+1)

/-- `void hashmap_set(hashmap *hm, const char *key, const char *val)`. -/
def hashmap_set (hm : hashmap) (key val : List Nat) : hashmap × Bool :=
  let idx := fnv_hash key &&& (TABLE_SIZE - 1)
  let r := set_loop hm.entries key val idx TABLE_SIZE 0
  (⟨r.1⟩, r.2)

/-- The probe loop of `hashmap_get` (benchcached.c lines 94-108). -/
def get_loop (ent : Nat → kv_entry) (key : List Nat) (idx : Nat) :
    Nat → Nat → Option (List Nat)
  | 0, _ => none
  | fuel+1, i =>
    let probe := (idx + i) &&& (TABLE_SIZE - 1)
    let e := ent probe
    if e.used = false then none
    else if e.deleted = true then get_loop ent key idx fuel (i+1)
    else if e.key = key then some e.val
    else get_loop ent key idx fuel (i+1)

/-- `char *hashmap_get(hashmap *hm, const char *key)`; `none` is `NULL`. -/
def hashmap_get (hm : hashmap) (key : List Nat) : Option (List Nat) :=
  let idx := fnv_hash key &&& (TABLE_SIZE - 1)
  get_loop hm.entries key idx TABLE_SIZE 0

/-- The probe loop of `hashmap_delete` (benchcached.c lines 117-130).
The C code checks only `!used` before `strcmp` — on a tombstone
(`used && deleted`) it compares against the `key` buffer it freed
earlier (undefined behaviour in C); the model keeps such a slot's byte
contents unchanged, matching memory that is freed but not reused.
On a match the slot keeps `used = 1` and gets `deleted = 1`. -/
def delete_loop (ent : Nat → kv_entry) (key : List Nat) (idx : Nat) :
    Nat → Nat → Nat → kv_entry
  | 0, _ => ent
  | fuel+1, i =>
    let probe := (idx + i) &&& (TABLE_SIZE - 1)
    let e := ent probe
    if e.used = false then ent
    else if e.key = key then upd ent probe { e with deleted := true }
    else delete_loop ent key idx fuel (i+1)

/-- `void hashmap_delete(hashmap *hm, const char *key)`. -/
def hashmap_delete (hm : hashmap) (key : List Nat) : hashmap :=
  let idx := fnv_hash key &&& (TABLE_SIZE - 1)
  ⟨delete_loop hm.entries key idx TABLE_SIZE 0⟩

end Server

namespace Bench

/-- The standalone table of `src/unnamed/part_000`: `kv_entry *entries`
plus a capacity `cap` chosen at creation. -/
structure hashmap where
  entries : Nat → kv_entry
  cap : Nat

/-- `fnv_hash` of part_000 (lines 47-54); identical constants/algorithm. -/
def fnv_loop (hash : Nat) : List Nat → Nat
  | [] => hash
  | b :: s => fnv_loop (((hash ^^^ (b % 256)) * 1099511628211) % 2 ^ 64) s

/-- `static uint64_t fnv_hash(const char *s)` of the standalone table. -/
def fnv_hash (s : List Nat) : Nat := fnv_loop 14695981039346656037 s

/-- `static size_t next_pow2(size_t x)` (part_000 lines 56-62):
`p = 1; while (p < x) p <<= 1;`.  The loop is modelled with fuel `x`
(ample: `p` doubles each step). -/
def next_pow2_loop (p : Nat) : Nat → Nat → Nat
  | 0, _ => p
  | fuel+1, x => if p < x then next_pow2_loop (p <<< 1) fuel x else p

/-- `next_pow2`. -/
def next_pow2 (x : Nat) : Nat := next_pow2_loop 1 x x

/-- `hashmap_create(expected_items)` (part_000 lines 64-81):
`cap = next_pow2(expected_items * 2 + 1)`, slots `calloc`-zeroed
(allocation assumed to succeed in this model). -/
def hashmap_create (expected_items : Nat) : hashmap :=
  ⟨fun _ => Server.zero_entry, next_pow2 (expected_items * 2 + 1)⟩

/-- The probe loop of the standalone `hashmap_set` (part_000 lines
103-146).  `ft` models `ssize_t first_tomb` (`none` = `-1`), `fuel` the
remaining iterations of `for (i = 0; i < hm->cap; i++)`.  `strdup` is
assumed to succeed here; the allocation-failure path is modelled
separately in the `Alloc` namespaces.  The `Int` result is the C return
value (`0` success, `-1` failure). -/
def set_loop (ent : Nat → kv_entry) (key val : List Nat) (idx cap : Nat) :
    Nat → Nat → Option Nat → (Nat → kv_entry) × Int
  | 0, _, _ => (ent, -1)
  | fuel+1, i, ft =>
    let probe := (idx + i) &&& (cap - 1)
    let e := ent probe
    if e.used = false then
      let dst := ft.getD probe
      (upd ent dst ⟨key, val, true, false⟩, 0)
    else if e.deleted = true then
      set_loop ent key val idx cap fuel (i+1) (if ft = none then some probe else ft)
    else if e.key = key then
      (upd ent probe { e with val := val }, 0)
    else
      set_loop ent key val idx cap fuel (i+1) ft

/-- `static int hashmap_set(hashmap *hm, const char *key, const char *val)`. -/
def hashmap_set (hm : hashmap) (key val : List Nat) : hashmap × Int :=
  let idx := fnv_hash key &&& (hm.cap - 1)
  let r := set_loop hm.entries key val idx hm.cap hm.cap 0 none
  (⟨r.1, hm.cap⟩, r.2)

/-- The probe loop of the standalone `hashmap_get` (part_000 lines 155-168). -/
def get_loop (ent : Nat → kv_entry) (key : List Nat) (idx cap : Nat) :
    Nat → Nat → Option (List Nat)
  | 0, _ => none
  | fuel+1, i =>
    let probe := (idx + i) &&& (cap - 1)
    let e := ent probe
    if e.used = false then none
    else if e.deleted = true then get_loop ent key idx cap fuel (i+1)
    else if e.key = key then some e.val
    else get_loop ent key idx cap fuel (i+1)

/-- `static const char *hashmap_get(const hashmap *hm, const char *key)`. -/
def hashmap_get (hm : hashmap) (key : List Nat) : Option (List Nat) :=
  let idx := fnv_hash key &&& (hm.cap - 1)
  get_loop hm.entries key idx hm.cap hm.cap 0

/-- The probe loop of the standalone `hashmap_delete` (part_000 lines
177-195): tombstones are skipped *before* any key comparison; on a match
the slot's pointers are NULLed (`[]` here) and `deleted = 1` with
`used` left `1`. -/
def delete_loop (ent : Nat → kv_entry) (key : List Nat) (idx cap : Nat) :
    Nat → Nat → Nat → kv_entry
  | 0, _ => ent
  | fuel+1, i =>
    let probe := (idx + i) &&& (cap - 1)
    let e := ent probe
    if e.used = false then ent
    else if e.deleted = true then delete_loop ent key idx cap fuel (i+1)
    else if e.key = key then upd ent probe ⟨[], [], true, true⟩
    else delete_loop ent key idx cap fuel (i+1)

/-- `static void hashmap_delete(hashmap *hm, const char *key)`. -/
def hashmap_delete (hm : hashmap) (key : List Nat) : hashmap :=
  let idx := fnv_hash key &&& (hm.cap - 1)
  ⟨delete_loop hm.entries key idx hm.cap hm.cap 0, hm.cap⟩

end Bench

/-!  ## Allocation-failure models of `set`

`strdup` can return NULL.  Here slots carry `Option (List Nat)` pointers
(`none` = NULL) and `set` takes two oracles `okKey okVal : Bool` telling
whether `strdup(key)` / `strdup(val)` succeeds on this call. -/

/-- A slot whose `char *` fields may be NULL. -/
structure alloc_entry where
  key : Option (List Nat)
  val : Option (List Nat)
  used : Bool
  deleted : Bool
deriving DecidableEq

/-- Point update for `alloc_entry` arrays. -/
def updA (ent : Nat → alloc_entry) (p : Nat) (e : alloc_entry) : Nat → alloc_entry :=
  fun q => if q = p then e else ent q

namespace AllocBench

/-- The standalone `hashmap_set` loop (part_000 lines 103-146) with the
allocation-failure path: on insert, `dst->key = strdup(key); dst->val =
strdup(val);` and if either is NULL both are freed and the slot is zeroed
(`used = 0, deleted = 0`) before returning `-1`; on update, `strdup(val)`
is tried first and `-1` returned with the table untouched if it fails. -/
def set_loop (ent : Nat → alloc_entry) (key val : List Nat) (idx cap : Nat)
    (okKey okVal : Bool) :
    Nat → Nat → Option Nat → (Nat → alloc_entry) × Int
  | 0, _, _ => (ent, -1)
  | fuel+1, i, ft =>
    let probe := (idx + i) &&& (cap - 1)
    let e := ent probe
    if e.used = false then
      let dst := ft.getD probe
      let dkey : Option (List Nat) := if okKey then some key else none
      let dval : Option (List Nat) := if okVal then some val else none
      if dkey = none ∨ dval = none then
        (updA ent dst ⟨none, none, false, false⟩, -1)
      else
        (updA ent dst ⟨dkey, dval, true, false⟩, 0)
    else if e.deleted = true then
      set_loop ent key val idx cap okKey okVal fuel (i+1)
        (if ft = none then some probe else ft)
    else if e.key = some key then
      let nv : Option (List Nat) := if okVal then some val else none
      if nv = none then (ent, -1)
      else (updA ent probe { e with val := nv }, 0)
    else
      set_loop ent key val idx cap okKey okVal fuel (i+1) ft

/-- Standalone `hashmap_set` with allocation oracles. -/
def hashmap_set (ent : Nat → alloc_entry) (cap : Nat) (key val : List Nat)
    (okKey okVal : Bool) : (Nat → alloc_entry) × Int :=
  let idx := Bench.fnv_hash key &&& (cap - 1)
  set_loop ent key val idx cap okKey okVal cap 0 none

end AllocBench

namespace AllocServer

/-- The server `hashmap_set` loop (benchcached.c lines 70-87) with
allocation oracles: the C code never checks the results of
`strdup(key)` / `strdup(val)`, stores them (possibly NULL) and marks the
slot `used = 1, deleted = 0` regardless; the function returns `void`. -/
def set_loop (ent : Nat → alloc_entry) (key val : List Nat) (idx : Nat)
    (okKey okVal : Bool) : Nat → Nat → Nat → alloc_entry
  | 0, _ => ent
  | fuel+1, i =>
    let probe := (idx + i) &&& (Server.TABLE_SIZE - 1)
    let e := ent probe
    if e.used = false ∨ e.deleted = true then
      updA ent probe ⟨if okKey then some key else none,
                      if okVal then some val else none, true, false⟩
    else if e.key = some key then
      updA ent probe { e with val := if okVal then some val else none }
    else
      set_loop ent key val idx okKey okVal fuel (i+1)

/-- Server `hashmap_set` with allocation oracles (returns only the new
table: the C function is `void`). -/
def hashmap_set (ent : Nat → alloc_entry) (key val : List Nat)
    (okKey okVal : Bool) : Nat → alloc_entry :=
  let idx := Server.fnv_hash key &&& (Server.TABLE_SIZE - 1)
  set_loop ent key val idx okKey okVal Server.TABLE_SIZE 0

/-- An all-zero `alloc_entry` table (fresh `hashmap_create`). -/
def zero_table : Nat → alloc_entry := fun _ => ⟨none, none, false, false⟩

end AllocServer

/-!  ## The request handler `handle_pkt` (benchcached.c lines 133-207) -/

namespace Handler

/-- One strtok token: maximal run of non-`':'` bytes. -/
def notColon : Nat → Bool := fun b => !(b == 58)

/-- `strtok(msg, ":")` / `strtok(NULL, ":")` tokenisation: skip runs of
`':'`, emit maximal non-`':'` runs.  Consecutive, leading and trailing
delimiters are collapsed; an all-delimiter or empty string yields no
token (strtok returns NULL).  Fuel-based recursion (fuel `≥ length`
suffices; each step consumes at least one byte). -/
def toksF : Nat → List Nat → List (List Nat)
  | 0, _ => []
  | fuel+1, l =>
    match l.dropWhile (fun b => b == 58) with
    | [] => []
    | b :: rest =>
      (b :: rest).takeWhile notColon :: toksF fuel ((b :: rest).dropWhile notColon)

/-- All strtok tokens of a body. -/
def tokens (body : List Nat) : List (List Nat) := toksF (body.length + 1) body

/-- ASCII bytes of the commands and of `':'`. -/
def getCmd : List Nat := [103, 101, 116]

/-- `"set"`. -/
def setCmd : List Nat := [115, 101, 116]

/-- `"del"`. -/
def delCmd : List Nat := [100, 101, 108]

/-- Outcome of one `handle_pkt` call. -/
inductive PktOut where
  /-- `read` returned 0 before a `':'` was seen: return with no dispatch. -/
  | noData : PktOut
  /-- `strtok` returned NULL for the command and the C code passes NULL to
  `strcmp`: undefined behaviour (a crash on real libc). -/
  | crash : PktOut
  /-- Dispatch completed; `reply` is the raw bytes written back
  (`none` = no `write` at all). -/
  | done (reply : Option (List Nat)) : PktOut
deriving DecidableEq

/-- The digit-accumulation part of `atol`. -/
def atolDigits (acc : Int) : List Nat → Int
  | [] => acc
  | b :: rest =>
    if 48 ≤ b ∧ b ≤ 57 then atolDigits (acc * 10 + ((b : Int) - 48)) rest else acc

/-- C `atol`: skip whitespace, optional sign, leading decimal digits
(0 if none). -/
def atol (l : List Nat) : Int :=
  match l.dropWhile (fun b =>
      b == 32 || b == 9 || b == 10 || b == 11 || b == 12 || b == 13) with
  | 43 :: rest => atolDigits 0 rest
  | 45 :: rest => - atolDigits 0 rest
  | l1 => atolDigits 0 l1

/-- The length-prefix scanner (benchcached.c lines 141-156): read one byte
at a time while `off < 8`; stop at the first `':'` (not stored); if the
stream ends first, `handle_pkt` returns without dispatching (`none`
here).  If 8 bytes arrive without a `':'`, the loop exits with the 8
bytes as the length field and nothing more consumed.  Returns the length
bytes and the unconsumed remainder of the stream. -/
def scanLen : Nat → List Nat → Option (List Nat × List Nat)
  | 0, rest => some ([], rest)
  | _+1, [] => none
  | fuel+1, b :: rest =>
    if b = 58 then some ([], rest)
    else (scanLen fuel rest).map (fun pr => (b :: pr.1, pr.2))

/-- The body dispatch of `handle_pkt` (benchcached.c lines 182-204):
tokenise with `strtok` on `':'`, compare the first token against
`get`/`set`/`del`, run the table operation when the required argument
tokens are present, and for `get` arm the found value as the reply.  If
there is no first token the C code calls `strcmp(NULL, "get")`:
undefined behaviour, modelled as `crash`. -/
def dispatch (body : List Nat) (hm : Server.hashmap) : Server.hashmap × PktOut :=
  match tokens body with
  | [] => (hm, .crash)
  | cmd :: rest =>
    if cmd = getCmd then
      match rest with
      | key :: _ => (hm, .done (Server.hashmap_get hm key))
      | [] => (hm, .done none)
    else if cmd = setCmd then
      match rest with
      | key :: val :: _ => ((Server.hashmap_set hm key val).1, .done none)
      | _ => (hm, .done none)
    else if cmd = delCmd then
      match rest with
      | key :: _ => (Server.hashmap_delete hm key, .done none)
      | [] => (hm, .done none)
    else (hm, .done none)

/-- `void handle_pkt(int fd, hashmap *hm)` over an incoming byte stream
`input` (the peer closes after sending `input`).  The length `N` is
`atol` of the length field converted to `size_t` (`% 2 ^ 64`); the body
loop reads until `N` bytes or end of stream (short reads tolerated), and
`msg[off] = '\0'` makes everything after an embedded NUL invisible to
`strtok`. -/
def handle_pkt (input : List Nat) (hm : Server.hashmap) :
    Server.hashmap × PktOut :=
  match scanLen 8 input with
  | none => (hm, .noData)
  | some (pre, rest) =>
    let len : Nat := ((atol pre) % ((2 : Int) ^ 64)).toNat
    let body := (rest.take len).takeWhile (fun b => !(b == 0))
    dispatch body hm

end Handler

/-!  ## Probe-chain predicates

Shorthands for describing the slot found at the `l`-th step of the probe
sequence.  `probePos idx cap l` is the array index probed at step `l`.  -/

/-- Index probed at step `l` of the linear probe starting at `idx`. -/
abbrev probePos (idx cap l : Nat) : Nat := (idx + l) &&& (cap - 1)

/-- The slot is `Occupied` (used and not deleted). -/
abbrev occupied (ent : Nat → kv_entry) (p : Nat) : Prop :=
  (ent p).used = true ∧ (ent p).deleted = false

/-- The slot is `Occupied` and holds `key`. -/
abbrev matchAt (ent : Nat → kv_entry) (key : List Nat) (p : Nat) : Prop :=
  occupied ent p ∧ (ent p).key = key

/-- The slot is `Empty`. -/
abbrev emptyAt (ent : Nat → kv_entry) (p : Nat) : Prop := (ent p).used = false

/-- The slot is a `Tombstone`. -/
abbrev tombAt (ent : Nat → kv_entry) (p : Nat) : Prop :=
  (ent p).used = true ∧ (ent p).deleted = true

/-- `get` walks past this slot: used, and either a tombstone or another
key. -/
abbrev skipGet (ent : Nat → kv_entry) (key : List Nat) (p : Nat) : Prop :=
  (ent p).used = true ∧ ((ent p).deleted = true ∨ (ent p).key ≠ key)

/-- The slot is `Occupied` by a different key (the only case in which the
server's `set` loop continues). -/
abbrev hardSkip (ent : Nat → kv_entry) (key : List Nat) (p : Nat) : Prop :=
  (ent p).used = true ∧ (ent p).deleted = false ∧ (ent p).key ≠ key

/-!  ## Reference definitions written from the spec's words -/

/-- Modelled from the spec: the FNV-1a reference hash — "starting from
offset basis `0xcbf29ce484222325`, for each byte compute
`hash = (hash XOR byte) * 0x100000001b3` with 64-bit wraparound
multiplication". -/
def fnv_spec (bytes : List Nat) : Nat :=
  bytes.foldl (fun hash b => ((hash ^^^ b) * 0x100000001b3) % 2 ^ 64) 0xcbf29ce484222325

/-- Modelled from the spec: the probe position reached at step `l` of
the linear probe sequence "`i0, i0+1, ..., i0+capacity-1 (mod capacity)`"
with `i0 = hash(k) mod capacity`. -/
abbrev specPos (h cap l : Nat) : Nat := (h % cap + l) % cap

/-!  ## Operation sequences and concrete states used by the claims -/

/-- A table operation (used to state "any sequence of set and delete
operations"). -/
inductive TableOp where
  /-- `set key val`. -/
  | set (key val : List Nat) : TableOp
  /-- `delete key`. -/
  | del (key : List Nat) : TableOp

/-- The key an operation touches. -/
def TableOp.key : TableOp → List Nat
  | .set k _ => k
  | .del k => k

/-- Apply one operation to the server table. -/
def Server.applyOp (hm : Server.hashmap) : TableOp → Server.hashmap
  | .set k v => (Server.hashmap_set hm k v).1
  | .del k => Server.hashmap_delete hm k

/-- Apply a sequence of operations to the server table, oldest first. -/
def Server.applyOps (hm : Server.hashmap) (ops : List TableOp) : Server.hashmap :=
  ops.foldl Server.applyOp hm

/-- Apply one operation to the standalone table. -/
def Bench.applyOp (hm : Bench.hashmap) : TableOp → Bench.hashmap
  | .set k v => (Bench.hashmap_set hm k v).1
  | .del k => Bench.hashmap_delete hm k

/-- Apply a sequence of operations to the standalone table. -/
def Bench.applyOps (hm : Bench.hashmap) (ops : List TableOp) : Bench.hashmap :=
  ops.foldl Bench.applyOp hm

/-- The key `"ja"`; `fnv_hash "ja" & 1023 = 340`, colliding with `"y"`. -/
def keyJA : List Nat := [106, 97]

/-- The key `"y"`; `fnv_hash "y" & 1023 = 340`, same bucket as `"ja"`. -/
def keyY : List Nat := [121]

/-- The server state reached from a fresh table by
`set ja [1]; set y [2]; delete ja; set y [3]`: the delete leaves a
tombstone at slot 340, and the final `set y` re-inserts `y` there while
slot 341 still holds `y` — two Occupied slots for one key. -/
def dupState : Server.hashmap :=
  let s1 := (Server.hashmap_set Server.hashmap_create keyJA [1]).1
  let s2 := (Server.hashmap_set s1 keyY [2]).1
  let s3 := Server.hashmap_delete s2 keyJA
  (Server.hashmap_set s3 keyY [3]).1

/-- `dupState` after `delete y`: the delete tombstones only slot 340,
leaving the stale duplicate at slot 341 visible to `get`. -/
def dupStateDel : Server.hashmap := Server.hashmap_delete dupState keyY

/-- A server table whose 1024 slots are all Occupied by key `[1]`
(capacity exhaustion scenario for a distinct new key). -/
def fullServer : Server.hashmap := ⟨fun _ => ⟨[1], [1], true, false⟩⟩

/-- A standalone table of capacity 4 whose slots are all Occupied by
key `[1]`. -/
def fullBench : Bench.hashmap := ⟨fun _ => ⟨[1], [1], true, false⟩, 4⟩

/-!  ## Characterisation of the `get` probe loop -/

/-- The server's `get_loop` is the standalone `get_loop` at capacity
`TABLE_SIZE` (the two C functions are textually the same algorithm). -/
theorem server_get_loop_eq_bench (ent : Nat → kv_entry) (key : List Nat)
    (idx : Nat) : ∀ fuel i, Server.get_loop ent key idx fuel i =
      Bench.get_loop ent key idx Server.TABLE_SIZE fuel i := by
  intro fuel
  induction fuel with
  | zero => intro i; rfl
  | succ fuel ih => intro i; simp only [Server.get_loop, Bench.get_loop, ih]

/-- If the first `stop` of the probe walk (scanning from step `i`) is a
matching occupied slot at step `j`, the `get` loop returns its value. -/
theorem bget_loop_found (ent : Nat → kv_entry) (key : List Nat) (idx cap : Nat) :
    ∀ fuel i j, i ≤ j → j < i + fuel →
    (∀ l, i ≤ l → l < j → skipGet ent key (probePos idx cap l)) →
    matchAt ent key (probePos idx cap j) →
    Bench.get_loop ent key idx cap fuel i = some (ent (probePos idx cap j)).val := by
  intro fuel
  induction fuel with
  | zero => intro i j h1 h2 _ _; omega
  | succ fuel ih =>
    intro i j hij hlt hskip hm
    rcases Nat.eq_or_lt_of_le hij with rfl | hgt
    · obtain ⟨⟨hu, hd⟩, hk⟩ := hm
      simp only [Bench.get_loop, probePos] at hu hd hk ⊢
      simp [hu, hd, hk]
    · obtain ⟨hu, hrest⟩ := hskip i le_rfl hgt
      rcases hrest with hd | hk
      · simp only [Bench.get_loop, probePos] at hu hd ⊢
        simp only [hu, hd]
        simp only [Bool.true_eq_false, if_false, if_true]
        exact ih (i+1) j hgt (by omega) (fun l hl1 hl2 => hskip l (by omega) hl2) hm
      · by_cases hd : (ent (probePos idx cap i)).deleted = true
        · simp only [Bench.get_loop, probePos] at hu hd ⊢
          simp only [hu, hd]
          simp only [Bool.true_eq_false, if_false, if_true]
          exact ih (i+1) j hgt (by omega) (fun l hl1 hl2 => hskip l (by omega) hl2) hm
        · simp only [Bench.get_loop, probePos] at hu hd hk ⊢
          simp only [hu, hd, hk]
          simp only [Bool.true_eq_false, if_false]
          exact ih (i+1) j hgt (by omega) (fun l hl1 hl2 => hskip l (by omega) hl2) hm

/-- If the first `stop` of the probe walk is an `Empty` slot at step `j`,
`get` returns `none`. -/
theorem bget_loop_empty (ent : Nat → kv_entry) (key : List Nat) (idx cap : Nat) :
    ∀ fuel i j, i ≤ j → j < i + fuel →
    (∀ l, i ≤ l → l < j → skipGet ent key (probePos idx cap l)) →
    emptyAt ent (probePos idx cap j) →
    Bench.get_loop ent key idx cap fuel i = none := by
  intro fuel
  induction fuel with
  | zero => intro i j h1 h2 _ _; omega
  | succ fuel ih =>
    intro i j hij hlt hskip he
    rcases Nat.eq_or_lt_of_le hij with rfl | hgt
    · simp only [emptyAt, probePos] at he
      simp only [Bench.get_loop, probePos]
      simp [he]
    · obtain ⟨hu, hrest⟩ := hskip i le_rfl hgt
      rcases hrest with hd | hk
      · simp only [Bench.get_loop, probePos] at hu hd ⊢
        simp only [hu, hd, Bool.true_eq_false, if_false, if_true]
        exact ih (i+1) j hgt (by omega) (fun l hl1 hl2 => hskip l (by omega) hl2) he
      · by_cases hd : (ent (probePos idx cap i)).deleted = true
        · simp only [Bench.get_loop, probePos] at hu hd ⊢
          simp only [hu, hd, Bool.true_eq_false, if_false, if_true]
          exact ih (i+1) j hgt (by omega) (fun l hl1 hl2 => hskip l (by omega) hl2) he
        · simp only [Bench.get_loop, probePos] at hu hd hk ⊢
          simp only [hu, hd, hk, Bool.true_eq_false, if_false]
          exact ih (i+1) j hgt (by omega) (fun l hl1 hl2 => hskip l (by omega) hl2) he

/-- If every slot of the probe window is walked past, `get` returns
`none` (probe sequence exhausted). -/
theorem bget_loop_exhaust (ent : Nat → kv_entry) (key : List Nat) (idx cap : Nat) :
    ∀ fuel i,
    (∀ l, i ≤ l → l < i + fuel → skipGet ent key (probePos idx cap l)) →
    Bench.get_loop ent key idx cap fuel i = none := by
  intro fuel
  induction fuel with
  | zero => intro i _; rfl
  | succ fuel ih =>
    intro i hskip
    obtain ⟨hu, hrest⟩ := hskip i le_rfl (by omega)
    rcases hrest with hd | hk
    · simp only [Bench.get_loop, probePos] at hu hd ⊢
      simp only [hu, hd, Bool.true_eq_false, if_false, if_true]
      exact ih (i+1) (fun l hl1 hl2 => hskip l (by omega) (by omega))
    · by_cases hd : (ent (probePos idx cap i)).deleted = true
      · simp only [Bench.get_loop, probePos] at hu hd ⊢
        simp only [hu, hd, Bool.true_eq_false, if_false, if_true]
        exact ih (i+1) (fun l hl1 hl2 => hskip l (by omega) (by omega))
      · simp only [Bench.get_loop, probePos] at hu hd hk ⊢
        simp only [hu, hd, hk, Bool.true_eq_false, if_false]
        exact ih (i+1) (fun l hl1 hl2 => hskip l (by omega) (by omega))

/-- Converse: a successful `get` exhibits a matching occupied slot at
some step `j`, with every earlier step walked past. -/
theorem bget_loop_some (ent : Nat → kv_entry) (key : List Nat) (idx cap : Nat) :
    ∀ fuel i v, Bench.get_loop ent key idx cap fuel i = some v →
    ∃ j, i ≤ j ∧ j < i + fuel ∧ matchAt ent key (probePos idx cap j) ∧
      (ent (probePos idx cap j)).val = v ∧
      ∀ l, i ≤ l → l < j → skipGet ent key (probePos idx cap l) := by
  intro fuel
  induction fuel with
  | zero => intro i v h; exact absurd h (by simp [Bench.get_loop])
  | succ fuel ih =>
    intro i v h
    by_cases hu : (ent (probePos idx cap i)).used = false
    · simp only [Bench.get_loop, probePos] at h
      simp [hu] at h
    · have hu' : (ent (probePos idx cap i)).used = true := by
        revert hu; cases (ent (probePos idx cap i)).used <;> simp
      by_cases hd : (ent (probePos idx cap i)).deleted = true
      · simp only [Bench.get_loop, probePos] at h
        simp only [hu', hd, Bool.true_eq_false, if_false, if_true] at h
        obtain ⟨j, hj1, hj2, hj3, hj4, hj5⟩ := ih (i+1) v h
        refine ⟨j, by omega, by omega, hj3, hj4, fun l hl1 hl2 => ?_⟩
        rcases Nat.eq_or_lt_of_le hl1 with rfl | hlgt
        · exact ⟨hu', Or.inl hd⟩
        · exact hj5 l hlgt hl2
      · have hd' : (ent (probePos idx cap i)).deleted = false := by
          revert hd; cases (ent (probePos idx cap i)).deleted <;> simp
        by_cases hk : (ent (probePos idx cap i)).key = key
        · simp only [Bench.get_loop, probePos] at h
          simp [hu', hd', hk] at h
          exact ⟨i, le_rfl, by omega, ⟨⟨hu', hd'⟩, hk⟩, h, fun l hl1 hl2 => by omega⟩
        · simp only [Bench.get_loop, probePos] at h
          simp only [hu', hd', hk, Bool.true_eq_false, if_false] at h
          obtain ⟨j, hj1, hj2, hj3, hj4, hj5⟩ := ih (i+1) v h
          refine ⟨j, by omega, by omega, hj3, hj4, fun l hl1 hl2 => ?_⟩
          rcases Nat.eq_or_lt_of_le hl1 with rfl | hlgt
          · exact ⟨hu', Or.inr hk⟩
          · exact hj5 l hlgt hl2

/-!  ## Characterisation of the server's `set` probe loop -/

/-- If the first slot of the probe walk that is empty, a tombstone or a
key match is a non-occupied slot at step `j`, the server's `set` inserts
there — even when the same key occupies a later slot of the chain (the
key comparison at line 82 is tried only after the reuse test at
line 73). -/
theorem sset_loop_insert (ent : Nat → kv_entry) (key val : List Nat) (idx : Nat) :
    ∀ fuel i j, i ≤ j → j < i + fuel →
    (∀ l, i ≤ l → l < j → hardSkip ent key (probePos idx Server.TABLE_SIZE l)) →
    ((ent (probePos idx Server.TABLE_SIZE j)).used = false ∨
      (ent (probePos idx Server.TABLE_SIZE j)).deleted = true) →
    Server.set_loop ent key val idx fuel i =
      (upd ent (probePos idx Server.TABLE_SIZE j) ⟨key, val, true, false⟩, true) := by
  intro fuel
  induction fuel with
  | zero => intro i j h1 h2 _ _; omega
  | succ fuel ih =>
    intro i j hij hlt hskip hstop
    rcases Nat.eq_or_lt_of_le hij with rfl | hgt
    · simp only [Server.set_loop]
      rw [if_pos hstop]
    · obtain ⟨hu, hd, hk⟩ := hskip i le_rfl hgt
      have hcond : ¬ ((ent (probePos idx Server.TABLE_SIZE i)).used = false ∨
          (ent (probePos idx Server.TABLE_SIZE i)).deleted = true) := by
        simp [hu, hd]
      simp only [Server.set_loop]
      rw [if_neg hcond, if_neg hk]
      exact ih (i+1) j hgt (by omega) (fun l hl1 hl2 => hskip l (by omega) hl2) hstop

/-- If the first such slot is instead an occupied match at step `j`, the
server's `set` updates its value in place. -/
theorem sset_loop_update (ent : Nat → kv_entry) (key val : List Nat) (idx : Nat) :
    ∀ fuel i j, i ≤ j → j < i + fuel →
    (∀ l, i ≤ l → l < j → hardSkip ent key (probePos idx Server.TABLE_SIZE l)) →
    matchAt ent key (probePos idx Server.TABLE_SIZE j) →
    Server.set_loop ent key val idx fuel i =
      (upd ent (probePos idx Server.TABLE_SIZE j)
        { ent (probePos idx Server.TABLE_SIZE j) with val := val }, true) := by
  intro fuel
  induction fuel with
  | zero => intro i j h1 h2 _ _; omega
  | succ fuel ih =>
    intro i j hij hlt hskip hm
    rcases Nat.eq_or_lt_of_le hij with rfl | hgt
    · obtain ⟨⟨hu, hd⟩, hk⟩ := hm
      have hcond : ¬ ((ent (probePos idx Server.TABLE_SIZE i)).used = false ∨
          (ent (probePos idx Server.TABLE_SIZE i)).deleted = true) := by
        simp [hu, hd]
      simp only [Server.set_loop]
      rw [if_neg hcond, if_pos hk]
    · obtain ⟨hu, hd, hk⟩ := hskip i le_rfl hgt
      have hcond : ¬ ((ent (probePos idx Server.TABLE_SIZE i)).used = false ∨
          (ent (probePos idx Server.TABLE_SIZE i)).deleted = true) := by
        simp [hu, hd]
      simp only [Server.set_loop]
      rw [if_neg hcond, if_neg hk]
      exact ih (i+1) j hgt (by omega) (fun l hl1 hl2 => hskip l (by omega) hl2) hm

/-- If every slot of the window is occupied by another key, the server's
`set` loop exhausts: the table is unchanged and nothing is signalled
(the `false` is this model's record that no store happened — the C
function returns `void`). -/
theorem sset_loop_exhaust (ent : Nat → kv_entry) (key val : List Nat) (idx : Nat) :
    ∀ fuel i,
    (∀ l, i ≤ l → l < i + fuel → hardSkip ent key (probePos idx Server.TABLE_SIZE l)) →
    Server.set_loop ent key val idx fuel i = (ent, false) := by
  intro fuel
  induction fuel with
  | zero => intro i _; rfl
  | succ fuel ih =>
    intro i hskip
    obtain ⟨hu, hd, hk⟩ := hskip i le_rfl (by omega)
    have hcond : ¬ ((ent (probePos idx Server.TABLE_SIZE i)).used = false ∨
        (ent (probePos idx Server.TABLE_SIZE i)).deleted = true) := by
      simp [hu, hd]
    simp only [Server.set_loop]
    rw [if_neg hcond, if_neg hk]
    exact ih (i+1) (fun l hl1 hl2 => hskip l (by omega) (by omega))

/-- Converse: the server's `set` loop either leaves the table unchanged,
inserts a fresh occupied slot over a non-occupied one, or replaces the
value of an occupied slot holding `key`. -/
theorem sset_loop_cases (ent : Nat → kv_entry) (key val : List Nat) (idx : Nat) :
    ∀ fuel i,
    (Server.set_loop ent key val idx fuel i).1 = ent ∨
    (∃ q, ¬ occupied ent q ∧
      (Server.set_loop ent key val idx fuel i).1 = upd ent q ⟨key, val, true, false⟩) ∨
    (∃ q, matchAt ent key q ∧
      (Server.set_loop ent key val idx fuel i).1 = upd ent q { ent q with val := val }) := by
  intro fuel
  induction fuel with
  | zero => intro i; exact Or.inl rfl
  | succ fuel ih =>
    intro i
    by_cases hcond : (ent (probePos idx Server.TABLE_SIZE i)).used = false ∨
        (ent (probePos idx Server.TABLE_SIZE i)).deleted = true
    · refine Or.inr (Or.inl ⟨probePos idx Server.TABLE_SIZE i, ?_, ?_⟩)
      · intro ⟨hu, hd⟩
        rcases hcond with h | h
        · rw [hu] at h; exact absurd h (by simp)
        · rw [hd] at h; exact absurd h (by simp)
      · simp only [Server.set_loop]
        rw [if_pos hcond]
    · by_cases hk : (ent (probePos idx Server.TABLE_SIZE i)).key = key
      · refine Or.inr (Or.inr ⟨probePos idx Server.TABLE_SIZE i, ⟨⟨?_, ?_⟩, hk⟩, ?_⟩)
        · revert hcond; cases h : (ent (probePos idx Server.TABLE_SIZE i)).used <;> simp
        · revert hcond; cases h : (ent (probePos idx Server.TABLE_SIZE i)).deleted <;> simp
        · simp only [Server.set_loop]
          rw [if_neg hcond, if_pos hk]
      · simp only [Server.set_loop]
        rw [if_neg hcond, if_neg hk]
        exact ih (i+1)

/-!  ## Characterisation of the standalone `set` probe loop -/

/-- Update case: if the first empty-or-matching slot of the walk is an
occupied match at step `j`, the standalone `set` replaces the value in
place (whatever tombstones were recorded). -/
theorem bset_loop_update (ent : Nat → kv_entry) (key val : List Nat) (idx cap : Nat) :
    ∀ fuel i ft j, i ≤ j → j < i + fuel →
    (∀ l, i ≤ l → l < j → skipGet ent key (probePos idx cap l)) →
    matchAt ent key (probePos idx cap j) →
    Bench.set_loop ent key val idx cap fuel i ft =
      (upd ent (probePos idx cap j) { ent (probePos idx cap j) with val := val }, 0) := by
  intro fuel
  induction fuel with
  | zero => intro i ft j h1 h2 _ _; omega
  | succ fuel ih =>
    intro i ft j hij hlt hskip hm
    rcases Nat.eq_or_lt_of_le hij with rfl | hgt
    · obtain ⟨⟨hu, hd⟩, hk⟩ := hm
      simp only [Bench.set_loop]
      rw [if_neg (by simp [hu]), if_neg (by simp [hd]), if_pos hk]
    · obtain ⟨hu, hrest⟩ := hskip i le_rfl hgt
      rcases hrest with hd | hk
      · simp only [Bench.set_loop]
        rw [if_neg (by simp [hu]), if_pos hd]
        exact ih (i+1) _ j hgt (by omega) (fun l hl1 hl2 => hskip l (by omega) hl2) hm
      · by_cases hd : (ent (probePos idx cap i)).deleted = true
        · simp only [Bench.set_loop]
          rw [if_neg (by simp [hu]), if_pos hd]
          exact ih (i+1) _ j hgt (by omega) (fun l hl1 hl2 => hskip l (by omega) hl2) hm
        · simp only [Bench.set_loop]
          rw [if_neg (by simp [hu]), if_neg hd, if_neg hk]
          exact ih (i+1) _ j hgt (by omega) (fun l hl1 hl2 => hskip l (by omega) hl2) hm

/-- Insert case with a tombstone already recorded: once `first_tomb` is
set (to any index `T`), reaching an `Empty` slot inserts at `T`. -/
theorem bset_loop_insert_ft (ent : Nat → kv_entry) (key val : List Nat) (idx cap : Nat) :
    ∀ fuel i T j, i ≤ j → j < i + fuel →
    (∀ l, i ≤ l → l < j → skipGet ent key (probePos idx cap l)) →
    emptyAt ent (probePos idx cap j) →
    Bench.set_loop ent key val idx cap fuel i (some T) =
      (upd ent T ⟨key, val, true, false⟩, 0) := by
  intro fuel
  induction fuel with
  | zero => intro i T j h1 h2 _ _; omega
  | succ fuel ih =>
    intro i T j hij hlt hskip he
    rcases Nat.eq_or_lt_of_le hij with rfl | hgt
    · simp only [Bench.set_loop]
      rw [if_pos he]
      rfl
    · obtain ⟨hu, hrest⟩ := hskip i le_rfl hgt
      rcases hrest with hd | hk
      · simp only [Bench.set_loop]
        rw [if_neg (by simp [hu]), if_pos hd]
        have : (if (some T : Option Nat) = none then some (probePos idx cap i)
            else some T) = some T := by simp
        rw [this]
        exact ih (i+1) T j hgt (by omega) (fun l hl1 hl2 => hskip l (by omega) hl2) he
      · by_cases hd : (ent (probePos idx cap i)).deleted = true
        · simp only [Bench.set_loop]
          rw [if_neg (by simp [hu]), if_pos hd]
          have : (if (some T : Option Nat) = none then some (probePos idx cap i)
              else some T) = some T := by simp
          rw [this]
          exact ih (i+1) T j hgt (by omega) (fun l hl1 hl2 => hskip l (by omega) hl2) he
        · simp only [Bench.set_loop]
          rw [if_neg (by simp [hu]), if_neg hd, if_neg hk]
          exact ih (i+1) T j hgt (by omega) (fun l hl1 hl2 => hskip l (by omega) hl2) he

/-- Insert case with no tombstone on the walk: the standalone `set`
inserts at the `Empty` slot itself. -/
theorem bset_loop_insert_empty (ent : Nat → kv_entry) (key val : List Nat) (idx cap : Nat) :
    ∀ fuel i j, i ≤ j → j < i + fuel →
    (∀ l, i ≤ l → l < j → hardSkip ent key (probePos idx cap l)) →
    emptyAt ent (probePos idx cap j) →
    Bench.set_loop ent key val idx cap fuel i none =
      (upd ent (probePos idx cap j) ⟨key, val, true, false⟩, 0) := by
  intro fuel
  induction fuel with
  | zero => intro i j h1 h2 _ _; omega
  | succ fuel ih =>
    intro i j hij hlt hskip he
    rcases Nat.eq_or_lt_of_le hij with rfl | hgt
    · simp only [Bench.set_loop]
      rw [if_pos he]
      rfl
    · obtain ⟨hu, hd, hk⟩ := hskip i le_rfl hgt
      simp only [Bench.set_loop]
      rw [if_neg (by simp [hu]), if_neg (by simp [hd]), if_neg hk]
      exact ih (i+1) j hgt (by omega) (fun l hl1 hl2 => hskip l (by omega) hl2) he

/-- Insert case with the first tombstone of the walk at step `t`: the
standalone `set` inserts into that tombstone (slot reuse preferring the
first tombstone on the probe path). -/
theorem bset_loop_insert_tomb (ent : Nat → kv_entry) (key val : List Nat) (idx cap : Nat) :
    ∀ fuel i t j, i ≤ t → t < j → j < i + fuel →
    (∀ l, i ≤ l → l < t → hardSkip ent key (probePos idx cap l)) →
    tombAt ent (probePos idx cap t) →
    (∀ l, t < l → l < j → skipGet ent key (probePos idx cap l)) →
    emptyAt ent (probePos idx cap j) →
    Bench.set_loop ent key val idx cap fuel i none =
      (upd ent (probePos idx cap t) ⟨key, val, true, false⟩, 0) := by
  intro fuel
  induction fuel with
  | zero => intro i t j h1 h2 h3 _ _ _ _; omega
  | succ fuel ih =>
    intro i t j hit htj hlt hskip1 htomb hskip2 he
    rcases Nat.eq_or_lt_of_le hit with rfl | hgt
    · obtain ⟨hu, hd⟩ := htomb
      simp only [Bench.set_loop]
      rw [if_neg (by simp [hu]), if_pos hd]
      exact bset_loop_insert_ft ent key val idx cap fuel (i+1) (probePos idx cap i) j
        htj (by omega) (fun l hl1 hl2 => hskip2 l (by omega) hl2) he
    · obtain ⟨hu, hd, hk⟩ := hskip1 i le_rfl hgt
      simp only [Bench.set_loop]
      rw [if_neg (by simp [hu]), if_neg (by simp [hd]), if_neg hk]
      exact ih (i+1) t j hgt htj (by omega)
        (fun l hl1 hl2 => hskip1 l (by omega) hl2) htomb hskip2 he

/-- If every slot of the window is used and is a tombstone or another
key, the standalone `set` loop exhausts and returns `-1` with the table
unchanged (a tombstone recorded in `first_tomb` is *not* reused unless
an `Empty` slot is found). -/
theorem bset_loop_exhaust (ent : Nat → kv_entry) (key val : List Nat) (idx cap : Nat) :
    ∀ fuel i ft,
    (∀ l, i ≤ l → l < i + fuel → skipGet ent key (probePos idx cap l)) →
    Bench.set_loop ent key val idx cap fuel i ft = (ent, -1) := by
  intro fuel
  induction fuel with
  | zero => intro i ft _; rfl
  | succ fuel ih =>
    intro i ft hskip
    obtain ⟨hu, hrest⟩ := hskip i le_rfl (by omega)
    rcases hrest with hd | hk
    · simp only [Bench.set_loop]
      rw [if_neg (by simp [hu]), if_pos hd]
      exact ih (i+1) _ (fun l hl1 hl2 => hskip l (by omega) (by omega))
    · by_cases hd : (ent (probePos idx cap i)).deleted = true
      · simp only [Bench.set_loop]
        rw [if_neg (by simp [hu]), if_pos hd]
        exact ih (i+1) _ (fun l hl1 hl2 => hskip l (by omega) (by omega))
      · simp only [Bench.set_loop]
        rw [if_neg (by simp [hu]), if_neg hd, if_neg hk]
        exact ih (i+1) _ (fun l hl1 hl2 => hskip l (by omega) (by omega))

/-- Converse for the standalone `set` loop: provided every recorded
`first_tomb` candidate is a tombstone (true of the real runs, where it
is set only from tombstone probes), the loop leaves the table unchanged,
inserts over a non-occupied slot, or updates a matching occupied slot. -/
theorem bset_loop_cases (ent : Nat → kv_entry) (key val : List Nat) (idx cap : Nat) :
    ∀ fuel i ft, (∀ t, ft = some t → tombAt ent t) →
    (Bench.set_loop ent key val idx cap fuel i ft).1 = ent ∨
    (∃ q, ¬ occupied ent q ∧
      (Bench.set_loop ent key val idx cap fuel i ft).1 = upd ent q ⟨key, val, true, false⟩) ∨
    (∃ q, matchAt ent key q ∧
      (Bench.set_loop ent key val idx cap fuel i ft).1 =
        upd ent q { ent q with val := val }) := by
  intro fuel
  induction fuel with
  | zero => intro i ft _; exact Or.inl rfl
  | succ fuel ih =>
    intro i ft hft
    by_cases hu : (ent (probePos idx cap i)).used = false
    · cases hcase : ft with
      | none =>
        refine Or.inr (Or.inl ⟨probePos idx cap i, ?_, ?_⟩)
        · intro h
          have h1 := h.1
          rw [hu] at h1
          exact absurd h1 (by simp)
        · simp only [Bench.set_loop]
          rw [if_pos hu]
          rfl
      | some t =>
        refine Or.inr (Or.inl ⟨t, ?_, ?_⟩)
        · obtain ⟨-, hd2⟩ := hft t hcase
          intro h
          have h2 := h.2
          rw [hd2] at h2
          exact absurd h2 (by simp)
        · simp only [Bench.set_loop]
          rw [if_pos hu]
          rfl
    · have hu' : (ent (probePos idx cap i)).used = true := by
        revert hu; cases (ent (probePos idx cap i)).used <;> simp
      by_cases hd : (ent (probePos idx cap i)).deleted = true
      · simp only [Bench.set_loop]
        rw [if_neg (by simp [hu']), if_pos hd]
        refine ih (i+1) _ ?_
        intro t ht
        by_cases hftn : ft = none
        · rw [hftn] at ht
          simp at ht
          rw [← ht]
          exact ⟨hu', hd⟩
        · rw [if_neg hftn] at ht
          exact hft t ht
      · by_cases hk : (ent (probePos idx cap i)).key = key
        · have hd' : (ent (probePos idx cap i)).deleted = false := by
            revert hd; cases (ent (probePos idx cap i)).deleted <;> simp
          refine Or.inr (Or.inr ⟨probePos idx cap i, ⟨⟨hu', hd'⟩, hk⟩, ?_⟩)
          simp only [Bench.set_loop]
          rw [if_neg (by simp [hu']), if_neg hd, if_pos hk]
        · simp only [Bench.set_loop]
          rw [if_neg (by simp [hu']), if_neg hd, if_neg hk]
          exact ih (i+1) ft hft

/-!  ## Converses of the two `delete` probe loops -/

/-- The server's `delete` loop either leaves the table unchanged or
marks `deleted` on some used slot whose (possibly stale) key bytes equal
`key` — note that the C code compares keys even on tombstones. -/
theorem sdel_loop_cases (ent : Nat → kv_entry) (key : List Nat) (idx : Nat) :
    ∀ fuel i,
    Server.delete_loop ent key idx fuel i = ent ∨
    (∃ q, (ent q).used = true ∧ (ent q).key = key ∧
      Server.delete_loop ent key idx fuel i = upd ent q { ent q with deleted := true }) := by
  intro fuel
  induction fuel with
  | zero => intro i; exact Or.inl rfl
  | succ fuel ih =>
    intro i
    by_cases hu : (ent (probePos idx Server.TABLE_SIZE i)).used = false
    · simp only [Server.delete_loop]
      rw [if_pos hu]
      exact Or.inl rfl
    · have hu' : (ent (probePos idx Server.TABLE_SIZE i)).used = true := by
        revert hu; cases (ent (probePos idx Server.TABLE_SIZE i)).used <;> simp
      by_cases hk : (ent (probePos idx Server.TABLE_SIZE i)).key = key
      · refine Or.inr ⟨probePos idx Server.TABLE_SIZE i, hu', hk, ?_⟩
        simp only [Server.delete_loop]
        rw [if_neg hu, if_pos hk]
      · simp only [Server.delete_loop]
        rw [if_neg hu, if_neg hk]
        exact ih (i+1)

/-- The standalone `delete` loop either leaves the table unchanged or
turns a matching occupied slot into a tombstone with NULLed buffers. -/
theorem bdel_loop_cases (ent : Nat → kv_entry) (key : List Nat) (idx cap : Nat) :
    ∀ fuel i,
    Bench.delete_loop ent key idx cap fuel i = ent ∨
    (∃ q, matchAt ent key q ∧
      Bench.delete_loop ent key idx cap fuel i = upd ent q ⟨[], [], true, true⟩) := by
  intro fuel
  induction fuel with
  | zero => intro i; exact Or.inl rfl
  | succ fuel ih =>
    intro i
    by_cases hu : (ent (probePos idx cap i)).used = false
    · simp only [Bench.delete_loop]
      rw [if_pos hu]
      exact Or.inl rfl
    · have hu' : (ent (probePos idx cap i)).used = true := by
        revert hu; cases (ent (probePos idx cap i)).used <;> simp
      by_cases hd : (ent (probePos idx cap i)).deleted = true
      · simp only [Bench.delete_loop]
        rw [if_neg hu, if_pos hd]
        exact ih (i+1)
      · have hd' : (ent (probePos idx cap i)).deleted = false := by
          revert hd; cases (ent (probePos idx cap i)).deleted <;> simp
        by_cases hk : (ent (probePos idx cap i)).key = key
        · refine Or.inr ⟨probePos idx cap i, ⟨⟨hu', hd'⟩, hk⟩, ?_⟩
          simp only [Bench.delete_loop]
          rw [if_neg hu, if_neg hd, if_pos hk]
        · simp only [Bench.delete_loop]
          rw [if_neg hu, if_neg hd, if_neg hk]
          exact ih (i+1)

/-- Helper: the server/standalone fnv byte loop agrees with the spec's
foldl once bytes are genuine bytes (`< 256`, so the `(unsigned char)`
cast is the identity). -/
theorem fnv_loop_eq_spec : ∀ (x : List Nat) (h : Nat), (∀ b ∈ x, b < 256) →
    Server.fnv_loop h x =
      x.foldl (fun hash b => ((hash ^^^ b) * 0x100000001b3) % 2 ^ 64) h := by
  intro x
  induction x with
  | nil => intro h _; rfl
  | cons b rest ih =>
    intro h hb
    have hb256 : b % 256 = b := Nat.mod_eq_of_lt (hb b (by simp))
    simp only [Server.fnv_loop, List.foldl_cons, hb256]
    exact ih _ (fun c hc => hb c (by simp [hc]))

/-- Helper: the standalone byte loop is the server byte loop (identical
constants and algorithm). -/
theorem bench_fnv_loop_eq_server : ∀ (x : List Nat) (h : Nat),
    Bench.fnv_loop h x = Server.fnv_loop h x := by
  intro x
  induction x with
  | nil => intro h; rfl
  | cons b rest ih =>
    intro h
    simp only [Bench.fnv_loop, Server.fnv_loop, Server.FNV_PRIME, Server.U64]
    exact ih _

/-- Helper: two distinct steps `l < j < 2 ^ m` of one probe sequence hit
distinct slots (`&&& (2^m - 1)` is reduction mod `2^m`, and the stride-1
probe visits each residue once per wrap). -/
theorem probePos_ne (idx m : Nat) {l j : Nat} (hlj : l < j) (hj : j < 2 ^ m) :
    probePos idx (2 ^ m) l ≠ probePos idx (2 ^ m) j := by
  intro h
  simp only [probePos] at h
  rw [Nat.and_pow_two_sub_one_eq_mod, Nat.and_pow_two_sub_one_eq_mod] at h
  have hdvd : (2 ^ m) ∣ (idx + j) - (idx + l) := (Nat.modEq_iff_dvd' (by omega)).mp h
  have hge : 2 ^ m ≤ (idx + j) - (idx + l) := Nat.le_of_dvd (by omega) hdvd
  omega

/-- Helper: the code's masked position equals the spec's mod-based
position when the capacity is `2 ^ m`. -/
theorem probePos_eq_specPos (h m : Nat) (l : Nat) :
    probePos (h &&& (2 ^ m - 1)) (2 ^ m) l = specPos h (2 ^ m) l := by
  simp only [probePos, specPos]
  rw [Nat.and_pow_two_sub_one_eq_mod, Nat.and_pow_two_sub_one_eq_mod, Nat.mod_add_mod]

/-- Helper: `TABLE_SIZE = 2 ^ 10`. -/
theorem table_size_pow : Server.TABLE_SIZE = 2 ^ 10 := by norm_num [Server.TABLE_SIZE]

/-- C9: the hash used by `set`/`get`/`delete` is exactly the FNV-1a
reference fold (offset basis `0xcbf29ce484222325`, prime
`0x100000001b3`, 64-bit wraparound); the server and the standalone table
compute the identical hash; and the starting-index bitmask
`hash & (capacity - 1)` equals `hash mod capacity` for any power-of-two
capacity, in particular for the server's `TABLE_SIZE`. -/
theorem c9_fnv_hash_is_fnv1a_and_mask_is_mod :
    (∀ x : List Nat, (∀ b ∈ x, b < 256) → Server.fnv_hash x = fnv_spec x)
    ∧ (∀ x : List Nat, Bench.fnv_hash x = Server.fnv_hash x)
    ∧ (∀ h n : Nat, h &&& (2 ^ n - 1) = h % 2 ^ n)
    ∧ (∀ key : List Nat, Server.fnv_hash key &&& (Server.TABLE_SIZE - 1) =
        Server.fnv_hash key % Server.TABLE_SIZE) := by
  refine ⟨?_, ?_, ?_, ?_⟩
  · intro x hb
    exact fnv_loop_eq_spec x Server.FNV_OFFSET hb
  · intro x
    exact bench_fnv_loop_eq_server x _
  · intro h n
    exact Nat.and_pow_two_sub_one_eq_mod h n
  · intro key
    rw [table_size_pow]
    exact Nat.and_pow_two_sub_one_eq_mod _ 10

/-- C9 witness: the reference equality evaluated on the concrete key
`"foo"` (bytes `[102, 111, 111]`). -/
theorem c9_witness :
    (∀ b ∈ [102, 111, 111], b < 256) ∧
      Server.fnv_hash [102, 111, 111] = fnv_spec [102, 111, 111] :=
  ⟨by decide, c9_fnv_hash_is_fnv1a_and_mask_is_mod.1 [102, 111, 111] (by decide)⟩

/-- C4: `get` walks the probe sequence from `hash(key) mod capacity`;
it returns the value of the first Occupied slot holding the key, returns
not-found upon reaching an Empty slot, skips Tombstone (and
other-key) slots, and returns not-found when the whole sequence is
exhausted.  Stated for the server table (capacity `TABLE_SIZE`) and the
standalone table (any power-of-two capacity). -/
theorem c4_get_walks_probe_sequence :
    (∀ (hm : Server.hashmap) (key : List Nat),
      (∀ j, j < Server.TABLE_SIZE →
        matchAt hm.entries key (specPos (Server.fnv_hash key) Server.TABLE_SIZE j) →
        (∀ l, l < j → skipGet hm.entries key (specPos (Server.fnv_hash key) Server.TABLE_SIZE l)) →
        Server.hashmap_get hm key =
          some (hm.entries (specPos (Server.fnv_hash key) Server.TABLE_SIZE j)).val) ∧
      (∀ j, j < Server.TABLE_SIZE →
        emptyAt hm.entries (specPos (Server.fnv_hash key) Server.TABLE_SIZE j) →
        (∀ l, l < j → skipGet hm.entries key (specPos (Server.fnv_hash key) Server.TABLE_SIZE l)) →
        Server.hashmap_get hm key = none) ∧
      ((∀ l, l < Server.TABLE_SIZE →
          skipGet hm.entries key (specPos (Server.fnv_hash key) Server.TABLE_SIZE l)) →
        Server.hashmap_get hm key = none))
    ∧ (∀ (hm : Bench.hashmap) (key : List Nat) (m : Nat), hm.cap = 2 ^ m →
      (∀ j, j < hm.cap →
        matchAt hm.entries key (specPos (Bench.fnv_hash key) hm.cap j) →
        (∀ l, l < j → skipGet hm.entries key (specPos (Bench.fnv_hash key) hm.cap l)) →
        Bench.hashmap_get hm key =
          some (hm.entries (specPos (Bench.fnv_hash key) hm.cap j)).val) ∧
      (∀ j, j < hm.cap →
        emptyAt hm.entries (specPos (Bench.fnv_hash key) hm.cap j) →
        (∀ l, l < j → skipGet hm.entries key (specPos (Bench.fnv_hash key) hm.cap l)) →
        Bench.hashmap_get hm key = none) ∧
      ((∀ l, l < hm.cap → skipGet hm.entries key (specPos (Bench.fnv_hash key) hm.cap l)) →
        Bench.hashmap_get hm key = none)) := by
  constructor
  · intro hm key
    have hpos : ∀ l, probePos (Server.fnv_hash key &&& (Server.TABLE_SIZE - 1))
        Server.TABLE_SIZE l = specPos (Server.fnv_hash key) Server.TABLE_SIZE l := by
      intro l
      rw [table_size_pow]
      exact probePos_eq_specPos _ 10 l
    refine ⟨?_, ?_, ?_⟩
    · intro j hj hmm hskip
      show Server.get_loop hm.entries key _ Server.TABLE_SIZE 0 = _
      rw [server_get_loop_eq_bench]
      rw [← hpos j] at hmm
      have := bget_loop_found hm.entries key _ Server.TABLE_SIZE Server.TABLE_SIZE 0 j
        (by omega) (by omega) (fun l _ hl2 => by rw [hpos l]; exact hskip l hl2) hmm
      rw [this, hpos j]
    · intro j hj he hskip
      show Server.get_loop hm.entries key _ Server.TABLE_SIZE 0 = _
      rw [server_get_loop_eq_bench]
      rw [← hpos j] at he
      exact bget_loop_empty hm.entries key _ Server.TABLE_SIZE Server.TABLE_SIZE 0 j
        (by omega) (by omega) (fun l _ hl2 => by rw [hpos l]; exact hskip l hl2) he
    · intro hskip
      show Server.get_loop hm.entries key _ Server.TABLE_SIZE 0 = _
      rw [server_get_loop_eq_bench]
      exact bget_loop_exhaust hm.entries key _ Server.TABLE_SIZE Server.TABLE_SIZE 0
        (fun l _ hl2 => by rw [hpos l]; exact hskip l (by omega))
  · intro hm key m hcap
    have hpos : ∀ l, probePos (Bench.fnv_hash key &&& (hm.cap - 1)) hm.cap l =
        specPos (Bench.fnv_hash key) hm.cap l := by
      intro l
      rw [hcap]
      exact probePos_eq_specPos _ m l
    refine ⟨?_, ?_, ?_⟩
    · intro j hj hmm hskip
      show Bench.get_loop hm.entries key _ hm.cap hm.cap 0 = _
      rw [← hpos j] at hmm
      have := bget_loop_found hm.entries key _ hm.cap hm.cap 0 j
        (by omega) (by omega) (fun l _ hl2 => by rw [hpos l]; exact hskip l hl2) hmm
      rw [this, hpos j]
    · intro j hj he hskip
      show Bench.get_loop hm.entries key _ hm.cap hm.cap 0 = _
      rw [← hpos j] at he
      exact bget_loop_empty hm.entries key _ hm.cap hm.cap 0 j
        (by omega) (by omega) (fun l _ hl2 => by rw [hpos l]; exact hskip l hl2) he
    · intro hskip
      show Bench.get_loop hm.entries key _ hm.cap hm.cap 0 = _
      exact bget_loop_exhaust hm.entries key _ hm.cap hm.cap 0
        (fun l _ hl2 => by rw [hpos l]; exact hskip l (by omega))

/-- C4 witness: on a fresh server table every slot is Empty, so the
probe stops at step 0 with not-found; on a standalone table of capacity
`4 = 2 ^ 2` holding key `[97]`, the probe finds it at step 0. -/
theorem c4_witness :
    Server.hashmap_get Server.hashmap_create [102, 111, 111] = none ∧
      Bench.hashmap_get (Bench.hashmap_set (Bench.hashmap_create 1) [97] [5]).1 [97] =
        some (((Bench.hashmap_set (Bench.hashmap_create 1) [97] [5]).1.entries
          (specPos (Bench.fnv_hash [97])
            (Bench.hashmap_set (Bench.hashmap_create 1) [97] [5]).1.cap 0)).val) := by
  constructor
  · exact (c4_get_walks_probe_sequence.1 Server.hashmap_create [102, 111, 111]).2.1 0
      (by decide) (by decide) (fun l hl => absurd hl (Nat.not_lt_zero l))
  · exact ((c4_get_walks_probe_sequence.2
      (Bench.hashmap_set (Bench.hashmap_create 1) [97] [5]).1 [97] 2 (by decide)).1) 0
      (by decide) (by decide) (fun l hl => absurd hl (Nat.not_lt_zero l))

/-!  ## Round-trip: `set` then `get` (claim C3) -/

/-- Helper: `probePos_ne` at the server's capacity. -/
theorem probePos_ne_server (idx : Nat) {l j : Nat} (hlj : l < j)
    (hj : j < Server.TABLE_SIZE) :
    probePos idx Server.TABLE_SIZE l ≠ probePos idx Server.TABLE_SIZE j := by
  rw [table_size_pow] at hj ⊢
  exact probePos_ne idx 10 hlj hj

/-- Helper: `skipGet` only looks at the slot's contents. -/
theorem skipGet_congr {ent ent₂ : Nat → kv_entry} {k : List Nat} {p : Nat}
    (h : ent₂ p = ent p) (hs : skipGet ent k p) : skipGet ent₂ k p :=
  ⟨by rw [h]; exact hs.1, by rw [h]; exact hs.2⟩

/-- Helper: `matchAt` only looks at the slot's contents. -/
theorem matchAt_congr {ent ent₂ : Nat → kv_entry} {k : List Nat} {p : Nat}
    (h : ent₂ p = ent p) (hs : matchAt ent k p) : matchAt ent₂ k p :=
  ⟨⟨by rw [h]; exact hs.1.1, by rw [h]; exact hs.1.2⟩, by rw [h]; exact hs.2⟩

/-- Helper: a `get` that found its key at step `j` still finds it after
a state change that rewrites no slot of consequence: every slot is
either unchanged or now walkable-past, and the found slot is unchanged. -/
theorem get_some_of_benign (ent ent₂ : Nat → kv_entry) (k : List Nat) (idx cap : Nat)
    (j : Nat) (hj : j < cap) (hmatch : matchAt ent k (probePos idx cap j))
    (hskip : ∀ l, l < j → skipGet ent k (probePos idx cap l))
    (hpres : ∀ p, ent₂ p = ent p ∨ skipGet ent₂ k p)
    (hj2 : ent₂ (probePos idx cap j) = ent (probePos idx cap j)) :
    Bench.get_loop ent₂ k idx cap cap 0 = some (ent (probePos idx cap j)).val := by
  have hfound := bget_loop_found ent₂ k idx cap cap 0 j (by omega) (by omega)
    (fun l _ hl2 => by
      rcases hpres (probePos idx cap l) with h | h
      · exact skipGet_congr h (hskip l hl2)
      · exact h)
    (matchAt_congr hj2 hmatch)
  rw [hfound, hj2]

/-- Helper: after a successful server `set k v`, `get k` returns `v`
(from any starting state). -/
theorem server_set_get (hm : Server.hashmap) (k v : List Nat)
    (hsucc : (Server.hashmap_set hm k v).2 = true) :
    Server.hashmap_get (Server.hashmap_set hm k v).1 k = some v := by
  have hset : Server.hashmap_set hm k v =
      (⟨(Server.set_loop hm.entries k v (Server.fnv_hash k &&& (Server.TABLE_SIZE - 1))
          Server.TABLE_SIZE 0).1⟩,
        (Server.set_loop hm.entries k v (Server.fnv_hash k &&& (Server.TABLE_SIZE - 1))
          Server.TABLE_SIZE 0).2) := rfl
  by_cases hall : ∀ l, l < Server.TABLE_SIZE → hardSkip hm.entries k
      (probePos (Server.fnv_hash k &&& (Server.TABLE_SIZE - 1)) Server.TABLE_SIZE l)
  · exfalso
    have hexh := sset_loop_exhaust hm.entries k v
      (Server.fnv_hash k &&& (Server.TABLE_SIZE - 1)) Server.TABLE_SIZE 0
      (fun l _ hl2 => hall l (by omega))
    rw [hset] at hsucc
    simp only [hexh] at hsucc
    exact absurd hsucc (by simp)
  · push_neg at hall
    obtain ⟨l0, hl0, hl0n⟩ := hall
    have hex : ∃ l, ¬ hardSkip hm.entries k
        (probePos (Server.fnv_hash k &&& (Server.TABLE_SIZE - 1)) Server.TABLE_SIZE l) :=
      ⟨l0, hl0n⟩
    set j := Nat.find hex with hjdef
    have hPj := Nat.find_spec hex
    have hjlt : j < Server.TABLE_SIZE := lt_of_le_of_lt (Nat.find_min' hex hl0n) hl0
    have hmin : ∀ l, l < j → hardSkip hm.entries k
        (probePos (Server.fnv_hash k &&& (Server.TABLE_SIZE - 1)) Server.TABLE_SIZE l) :=
      fun l hl => of_not_not (Nat.find_min hex hl)
    have hstopcases :
        ((hm.entries (probePos (Server.fnv_hash k &&& (Server.TABLE_SIZE - 1))
            Server.TABLE_SIZE j)).used = false ∨
          (hm.entries (probePos (Server.fnv_hash k &&& (Server.TABLE_SIZE - 1))
            Server.TABLE_SIZE j)).deleted = true) ∨
        matchAt hm.entries k (probePos (Server.fnv_hash k &&& (Server.TABLE_SIZE - 1))
          Server.TABLE_SIZE j) := by
      by_cases hu : (hm.entries (probePos (Server.fnv_hash k &&& (Server.TABLE_SIZE - 1))
          Server.TABLE_SIZE j)).used = true
      · by_cases hd : (hm.entries (probePos (Server.fnv_hash k &&& (Server.TABLE_SIZE - 1))
            Server.TABLE_SIZE j)).deleted = true
        · exact Or.inl (Or.inr hd)
        · have hd' : (hm.entries (probePos (Server.fnv_hash k &&& (Server.TABLE_SIZE - 1))
              Server.TABLE_SIZE j)).deleted = false := by
            revert hd
            cases (hm.entries (probePos (Server.fnv_hash k &&& (Server.TABLE_SIZE - 1))
              Server.TABLE_SIZE j)).deleted <;> simp
          by_cases hk : (hm.entries (probePos (Server.fnv_hash k &&& (Server.TABLE_SIZE - 1))
              Server.TABLE_SIZE j)).key = k
          · exact Or.inr ⟨⟨hu, hd'⟩, hk⟩
          · exact absurd ⟨hu, hd', hk⟩ hPj
      · refine Or.inl (Or.inl ?_)
        revert hu
        cases (hm.entries (probePos (Server.fnv_hash k &&& (Server.TABLE_SIZE - 1))
          Server.TABLE_SIZE j)).used <;> simp
    rcases hstopcases with hstop | hstop
    · -- insert at step j
      have hloop := sset_loop_insert hm.entries k v
        (Server.fnv_hash k &&& (Server.TABLE_SIZE - 1)) Server.TABLE_SIZE 0 j
        (by omega) (by omega) (fun l _ hl2 => hmin l hl2) hstop
      show Server.get_loop (Server.hashmap_set hm k v).1.entries k
        (Server.fnv_hash k &&& (Server.TABLE_SIZE - 1)) Server.TABLE_SIZE 0 = some v
      rw [server_get_loop_eq_bench, hset]
      simp only [hloop]
      have hfound := bget_loop_found
        (upd hm.entries (probePos (Server.fnv_hash k &&& (Server.TABLE_SIZE - 1))
          Server.TABLE_SIZE j) ⟨k, v, true, false⟩) k
        (Server.fnv_hash k &&& (Server.TABLE_SIZE - 1)) Server.TABLE_SIZE
        Server.TABLE_SIZE 0 j (by omega) (by omega)
        (fun l _ hl2 => by
          have hne := probePos_ne_server (Server.fnv_hash k &&& (Server.TABLE_SIZE - 1))
            hl2 hjlt
          have heq : (upd hm.entries (probePos (Server.fnv_hash k &&& (Server.TABLE_SIZE - 1))
              Server.TABLE_SIZE j) ⟨k, v, true, false⟩)
              (probePos (Server.fnv_hash k &&& (Server.TABLE_SIZE - 1)) Server.TABLE_SIZE l) =
              hm.entries (probePos (Server.fnv_hash k &&& (Server.TABLE_SIZE - 1))
                Server.TABLE_SIZE l) := by
            simp [upd, hne]
          obtain ⟨h1, h2, h3⟩ := hmin l hl2
          exact skipGet_congr heq ⟨h1, Or.inr h3⟩)
        (by
          refine ⟨⟨?_, ?_⟩, ?_⟩ <;> simp [upd])
      rw [hfound]
      simp [upd]
    · -- update in place at step j
      have hloop := sset_loop_update hm.entries k v
        (Server.fnv_hash k &&& (Server.TABLE_SIZE - 1)) Server.TABLE_SIZE 0 j
        (by omega) (by omega) (fun l _ hl2 => hmin l hl2) hstop
      show Server.get_loop (Server.hashmap_set hm k v).1.entries k
        (Server.fnv_hash k &&& (Server.TABLE_SIZE - 1)) Server.TABLE_SIZE 0 = some v
      rw [server_get_loop_eq_bench, hset]
      simp only [hloop]
      have hfound := bget_loop_found
        (upd hm.entries (probePos (Server.fnv_hash k &&& (Server.TABLE_SIZE - 1))
          Server.TABLE_SIZE j)
          { hm.entries (probePos (Server.fnv_hash k &&& (Server.TABLE_SIZE - 1))
              Server.TABLE_SIZE j) with val := v }) k
        (Server.fnv_hash k &&& (Server.TABLE_SIZE - 1)) Server.TABLE_SIZE
        Server.TABLE_SIZE 0 j (by omega) (by omega)
        (fun l _ hl2 => by
          have hne := probePos_ne_server (Server.fnv_hash k &&& (Server.TABLE_SIZE - 1))
            hl2 hjlt
          have heq : (upd hm.entries (probePos (Server.fnv_hash k &&& (Server.TABLE_SIZE - 1))
              Server.TABLE_SIZE j)
              { hm.entries (probePos (Server.fnv_hash k &&& (Server.TABLE_SIZE - 1))
                  Server.TABLE_SIZE j) with val := v })
              (probePos (Server.fnv_hash k &&& (Server.TABLE_SIZE - 1)) Server.TABLE_SIZE l) =
              hm.entries (probePos (Server.fnv_hash k &&& (Server.TABLE_SIZE - 1))
                Server.TABLE_SIZE l) := by
            simp [upd, hne]
          obtain ⟨h1, h2, h3⟩ := hmin l hl2
          exact skipGet_congr heq ⟨h1, Or.inr h3⟩)
        (by
          obtain ⟨⟨hu, hd⟩, hk⟩ := hstop
          exact ⟨⟨by simp [upd, hu], by simp [upd, hd]⟩, by simp [upd, hk]⟩)
      rw [hfound]
      simp [upd]

/-- Helper: `probePos_ne` for any power-of-two capacity. -/
theorem probePos_ne_of_pow (idx : Nat) {cap m l j : Nat} (hcap : cap = 2 ^ m)
    (hlj : l < j) (hj : j < cap) : probePos idx cap l ≠ probePos idx cap j := by
  subst hcap
  exact probePos_ne idx m hlj hj

/-- Helper: after a successful standalone `set k v` on a power-of-two
capacity, `get k` returns `v` (covering update in place, insert at an
`Empty` slot, and insert into the first tombstone of the probe path). -/
theorem bench_set_get (hm : Bench.hashmap) (k v : List Nat) (m : Nat)
    (hcap : hm.cap = 2 ^ m) (hsucc : (Bench.hashmap_set hm k v).2 = 0) :
    Bench.hashmap_get (Bench.hashmap_set hm k v).1 k = some v := by
  have hset : Bench.hashmap_set hm k v =
      (⟨(Bench.set_loop hm.entries k v (Bench.fnv_hash k &&& (hm.cap - 1))
          hm.cap hm.cap 0 none).1, hm.cap⟩,
        (Bench.set_loop hm.entries k v (Bench.fnv_hash k &&& (hm.cap - 1))
          hm.cap hm.cap 0 none).2) := rfl
  by_cases hall : ∀ l, l < hm.cap → skipGet hm.entries k
      (probePos (Bench.fnv_hash k &&& (hm.cap - 1)) hm.cap l)
  · exfalso
    have hexh := bset_loop_exhaust hm.entries k v (Bench.fnv_hash k &&& (hm.cap - 1))
      hm.cap hm.cap 0 none (fun l _ hl2 => hall l (by omega))
    rw [hset] at hsucc
    simp only [hexh] at hsucc
    omega
  · push_neg at hall
    obtain ⟨l0, hl0, hl0n⟩ := hall
    have hex : ∃ l, ¬ skipGet hm.entries k
        (probePos (Bench.fnv_hash k &&& (hm.cap - 1)) hm.cap l) := ⟨l0, hl0n⟩
    set j := Nat.find hex with hjdef
    have hPj := Nat.find_spec hex
    have hjlt : j < hm.cap := lt_of_le_of_lt (Nat.find_min' hex hl0n) hl0
    have hmin : ∀ l, l < j → skipGet hm.entries k
        (probePos (Bench.fnv_hash k &&& (hm.cap - 1)) hm.cap l) :=
      fun l hl => of_not_not (Nat.find_min hex hl)
    by_cases hu : (hm.entries (probePos (Bench.fnv_hash k &&& (hm.cap - 1))
        hm.cap j)).used = true
    · -- the stop is an occupied matching slot: update in place
      have hd' : (hm.entries (probePos (Bench.fnv_hash k &&& (hm.cap - 1))
          hm.cap j)).deleted = false := by
        by_cases hd : (hm.entries (probePos (Bench.fnv_hash k &&& (hm.cap - 1))
            hm.cap j)).deleted = true
        · exact absurd ⟨hu, Or.inl hd⟩ hPj
        · revert hd
          cases (hm.entries (probePos (Bench.fnv_hash k &&& (hm.cap - 1))
            hm.cap j)).deleted <;> simp
      have hk : (hm.entries (probePos (Bench.fnv_hash k &&& (hm.cap - 1))
          hm.cap j)).key = k := by
        by_cases hk0 : (hm.entries (probePos (Bench.fnv_hash k &&& (hm.cap - 1))
            hm.cap j)).key = k
        · exact hk0
        · exact absurd ⟨hu, Or.inr hk0⟩ hPj
      have hloop := bset_loop_update hm.entries k v (Bench.fnv_hash k &&& (hm.cap - 1))
        hm.cap hm.cap 0 none j (by omega) (by omega) (fun l _ hl2 => hmin l hl2)
        ⟨⟨hu, hd'⟩, hk⟩
      show Bench.get_loop (Bench.hashmap_set hm k v).1.entries k
        (Bench.fnv_hash k &&& ((Bench.hashmap_set hm k v).1.cap - 1))
        (Bench.hashmap_set hm k v).1.cap (Bench.hashmap_set hm k v).1.cap 0 = some v
      rw [hset]
      simp only [hloop]
      have hfound := bget_loop_found
        (upd hm.entries (probePos (Bench.fnv_hash k &&& (hm.cap - 1)) hm.cap j)
          { hm.entries (probePos (Bench.fnv_hash k &&& (hm.cap - 1)) hm.cap j) with
            val := v }) k
        (Bench.fnv_hash k &&& (hm.cap - 1)) hm.cap hm.cap 0 j (by omega) (by omega)
        (fun l _ hl2 => by
          have hne := probePos_ne_of_pow (Bench.fnv_hash k &&& (hm.cap - 1)) hcap hl2 hjlt
          have heq : (upd hm.entries (probePos (Bench.fnv_hash k &&& (hm.cap - 1)) hm.cap j)
              { hm.entries (probePos (Bench.fnv_hash k &&& (hm.cap - 1)) hm.cap j) with
                val := v })
              (probePos (Bench.fnv_hash k &&& (hm.cap - 1)) hm.cap l) =
              hm.entries (probePos (Bench.fnv_hash k &&& (hm.cap - 1)) hm.cap l) := by
            simp [upd, hne]
          exact skipGet_congr heq (hmin l hl2))
        (⟨⟨by simp [upd, hu], by simp [upd, hd']⟩, by simp [upd, hk]⟩)
      rw [hfound]
      simp [upd]
    · -- the stop is an Empty slot: insert (possibly into a tombstone)
      have he : emptyAt hm.entries (probePos (Bench.fnv_hash k &&& (hm.cap - 1))
          hm.cap j) := by
        show (hm.entries (probePos (Bench.fnv_hash k &&& (hm.cap - 1)) hm.cap j)).used = false
        revert hu
        cases (hm.entries (probePos (Bench.fnv_hash k &&& (hm.cap - 1)) hm.cap j)).used <;>
          simp
      by_cases htex : ∃ t, t < j ∧ (hm.entries (probePos (Bench.fnv_hash k &&& (hm.cap - 1))
          hm.cap t)).deleted = true
      · -- a tombstone precedes the Empty slot: insert into the first one
        have hex2 : ∃ t, t < j ∧ (hm.entries (probePos (Bench.fnv_hash k &&& (hm.cap - 1))
            hm.cap t)).deleted = true := htex
        set t0 := Nat.find hex2 with ht0def
        obtain ⟨ht0j, ht0d⟩ := Nat.find_spec hex2
        have ht0min : ∀ s, s < t0 → ¬ (s < j ∧ (hm.entries
            (probePos (Bench.fnv_hash k &&& (hm.cap - 1)) hm.cap s)).deleted = true) :=
          fun s hs => Nat.find_min hex2 hs
        have hpre : ∀ l, l < t0 → hardSkip hm.entries k
            (probePos (Bench.fnv_hash k &&& (hm.cap - 1)) hm.cap l) := by
          intro l hl
          obtain ⟨hlu, hlrest⟩ := hmin l (by omega)
          have hld : ¬ (hm.entries (probePos (Bench.fnv_hash k &&& (hm.cap - 1))
              hm.cap l)).deleted = true := fun hld => ht0min l hl ⟨by omega, hld⟩
          have hld' : (hm.entries (probePos (Bench.fnv_hash k &&& (hm.cap - 1))
              hm.cap l)).deleted = false := by
            revert hld
            cases (hm.entries (probePos (Bench.fnv_hash k &&& (hm.cap - 1))
              hm.cap l)).deleted <;> simp
          rcases hlrest with hld2 | hlk
          · exact absurd hld2 hld
          · exact ⟨hlu, hld', hlk⟩
        have htomb : tombAt hm.entries (probePos (Bench.fnv_hash k &&& (hm.cap - 1))
            hm.cap t0) := ⟨(hmin t0 ht0j).1, ht0d⟩
        have hloop := bset_loop_insert_tomb hm.entries k v
          (Bench.fnv_hash k &&& (hm.cap - 1)) hm.cap hm.cap 0 t0 j (by omega) ht0j
          (by omega) (fun l _ hl2 => hpre l hl2) htomb
          (fun l hl1 hl2 => hmin l hl2) he
        show Bench.get_loop (Bench.hashmap_set hm k v).1.entries k
          (Bench.fnv_hash k &&& ((Bench.hashmap_set hm k v).1.cap - 1))
          (Bench.hashmap_set hm k v).1.cap (Bench.hashmap_set hm k v).1.cap 0 = some v
        rw [hset]
        simp only [hloop]
        have hfound := bget_loop_found
          (upd hm.entries (probePos (Bench.fnv_hash k &&& (hm.cap - 1)) hm.cap t0)
            ⟨k, v, true, false⟩) k
          (Bench.fnv_hash k &&& (hm.cap - 1)) hm.cap hm.cap 0 t0 (by omega) (by omega)
          (fun l _ hl2 => by
            have hne := probePos_ne_of_pow (Bench.fnv_hash k &&& (hm.cap - 1)) hcap hl2
              (by omega)
            have heq : (upd hm.entries (probePos (Bench.fnv_hash k &&& (hm.cap - 1))
                hm.cap t0) ⟨k, v, true, false⟩)
                (probePos (Bench.fnv_hash k &&& (hm.cap - 1)) hm.cap l) =
                hm.entries (probePos (Bench.fnv_hash k &&& (hm.cap - 1)) hm.cap l) := by
              simp [upd, hne]
            obtain ⟨h1, h2, h3⟩ := hpre l hl2
            exact skipGet_congr heq ⟨h1, Or.inr h3⟩)
          (by refine ⟨⟨?_, ?_⟩, ?_⟩ <;> simp [upd])
        rw [hfound]
        simp [upd]
      · -- no tombstone before the Empty slot: insert at the Empty slot
        push_neg at htex
        have hpre : ∀ l, l < j → hardSkip hm.entries k
            (probePos (Bench.fnv_hash k &&& (hm.cap - 1)) hm.cap l) := by
          intro l hl
          obtain ⟨hlu, hlrest⟩ := hmin l hl
          have hld' : (hm.entries (probePos (Bench.fnv_hash k &&& (hm.cap - 1))
              hm.cap l)).deleted = false := by
            have := htex l hl
            revert this
            cases (hm.entries (probePos (Bench.fnv_hash k &&& (hm.cap - 1))
              hm.cap l)).deleted <;> simp
          rcases hlrest with hld2 | hlk
          · rw [hld'] at hld2
            exact absurd hld2 (by simp)
          · exact ⟨hlu, hld', hlk⟩
        have hloop := bset_loop_insert_empty hm.entries k v
          (Bench.fnv_hash k &&& (hm.cap - 1)) hm.cap hm.cap 0 j (by omega) (by omega)
          (fun l _ hl2 => hpre l hl2) he
        show Bench.get_loop (Bench.hashmap_set hm k v).1.entries k
          (Bench.fnv_hash k &&& ((Bench.hashmap_set hm k v).1.cap - 1))
          (Bench.hashmap_set hm k v).1.cap (Bench.hashmap_set hm k v).1.cap 0 = some v
        rw [hset]
        simp only [hloop]
        have hfound := bget_loop_found
          (upd hm.entries (probePos (Bench.fnv_hash k &&& (hm.cap - 1)) hm.cap j)
            ⟨k, v, true, false⟩) k
          (Bench.fnv_hash k &&& (hm.cap - 1)) hm.cap hm.cap 0 j (by omega) (by omega)
          (fun l _ hl2 => by
            have hne := probePos_ne_of_pow (Bench.fnv_hash k &&& (hm.cap - 1)) hcap hl2 hjlt
            have heq : (upd hm.entries (probePos (Bench.fnv_hash k &&& (hm.cap - 1))
                hm.cap j) ⟨k, v, true, false⟩)
                (probePos (Bench.fnv_hash k &&& (hm.cap - 1)) hm.cap l) =
                hm.entries (probePos (Bench.fnv_hash k &&& (hm.cap - 1)) hm.cap l) := by
              simp [upd, hne]
            obtain ⟨h1, h2, h3⟩ := hpre l hl2
            exact skipGet_congr heq ⟨h1, Or.inr h3⟩)
          (by refine ⟨⟨?_, ?_⟩, ?_⟩ <;> simp [upd])
        rw [hfound]
        simp [upd]

/-- Helper: one server operation on a key other than `k` preserves a
successful `get k`. -/
theorem server_get_preserved (hm : Server.hashmap) (k v : List Nat) (op : TableOp)
    (hget : Server.hashmap_get hm k = some v) (hne : TableOp.key op ≠ k) :
    Server.hashmap_get (Server.applyOp hm op) k = some v := by
  have hb : Server.get_loop hm.entries k (Server.fnv_hash k &&& (Server.TABLE_SIZE - 1))
      Server.TABLE_SIZE 0 = some v := hget
  rw [server_get_loop_eq_bench] at hb
  obtain ⟨j, hj0, hjlt, hmatch, hval, hskip⟩ := bget_loop_some hm.entries k
    (Server.fnv_hash k &&& (Server.TABLE_SIZE - 1)) Server.TABLE_SIZE
    Server.TABLE_SIZE 0 v hb
  cases op with
  | set k' v' =>
    have hkk : k' ≠ k := hne
    show Server.get_loop (Server.hashmap_set hm k' v').1.entries k
      (Server.fnv_hash k &&& (Server.TABLE_SIZE - 1)) Server.TABLE_SIZE 0 = some v
    rw [server_get_loop_eq_bench]
    rcases sset_loop_cases hm.entries k' v'
        (Server.fnv_hash k' &&& (Server.TABLE_SIZE - 1)) Server.TABLE_SIZE 0 with
      hc | hins | hupd
    · have := get_some_of_benign hm.entries (Server.hashmap_set hm k' v').1.entries k
        (Server.fnv_hash k &&& (Server.TABLE_SIZE - 1)) Server.TABLE_SIZE j (by omega)
        hmatch (fun l hl => hskip l (by omega) hl)
        (fun p => Or.inl (by show (Server.set_loop _ _ _ _ _ _).1 p = _; rw [hc]))
        (by show (Server.set_loop _ _ _ _ _ _).1 _ = _; rw [hc])
      rw [this, hval]
    · obtain ⟨q, hq, hc⟩ := hins
      have hqj : probePos (Server.fnv_hash k &&& (Server.TABLE_SIZE - 1))
          Server.TABLE_SIZE j ≠ q := fun h => hq (h ▸ hmatch.1)
      have := get_some_of_benign hm.entries (Server.hashmap_set hm k' v').1.entries k
        (Server.fnv_hash k &&& (Server.TABLE_SIZE - 1)) Server.TABLE_SIZE j (by omega)
        hmatch (fun l hl => hskip l (by omega) hl)
        (fun p => by
          by_cases hp : p = q
          · refine Or.inr ⟨?_, Or.inr ?_⟩
            · show ((Server.set_loop _ _ _ _ _ _).1 p).used = true
              rw [hc, hp]
              simp [upd]
            · show ((Server.set_loop _ _ _ _ _ _).1 p).key ≠ k
              rw [hc, hp]
              simp [upd]
              exact hkk
          · exact Or.inl (by
              show (Server.set_loop _ _ _ _ _ _).1 p = _
              rw [hc]
              simp [upd, hp]))
        (by
          show (Server.set_loop _ _ _ _ _ _).1 _ = _
          rw [hc]
          simp [upd, hqj])
      rw [this, hval]
    · obtain ⟨q, hq, hc⟩ := hupd
      have hqj : probePos (Server.fnv_hash k &&& (Server.TABLE_SIZE - 1))
          Server.TABLE_SIZE j ≠ q := fun h => hkk (by rw [← hq.2, ← h, hmatch.2])
      have := get_some_of_benign hm.entries (Server.hashmap_set hm k' v').1.entries k
        (Server.fnv_hash k &&& (Server.TABLE_SIZE - 1)) Server.TABLE_SIZE j (by omega)
        hmatch (fun l hl => hskip l (by omega) hl)
        (fun p => by
          by_cases hp : p = q
          · refine Or.inr ⟨?_, Or.inr ?_⟩
            · show ((Server.set_loop _ _ _ _ _ _).1 p).used = true
              rw [hc, hp]
              simp [upd]
              exact hq.1.1
            · show ((Server.set_loop _ _ _ _ _ _).1 p).key ≠ k
              rw [hc, hp]
              simp [upd]
              rw [hq.2]
              exact hkk
          · exact Or.inl (by
              show (Server.set_loop _ _ _ _ _ _).1 p = _
              rw [hc]
              simp [upd, hp]))
        (by
          show (Server.set_loop _ _ _ _ _ _).1 _ = _
          rw [hc]
          simp [upd, hqj])
      rw [this, hval]
  | del k' =>
    have hkk : k' ≠ k := hne
    show Server.get_loop (Server.hashmap_delete hm k').entries k
      (Server.fnv_hash k &&& (Server.TABLE_SIZE - 1)) Server.TABLE_SIZE 0 = some v
    rw [server_get_loop_eq_bench]
    rcases sdel_loop_cases hm.entries k'
        (Server.fnv_hash k' &&& (Server.TABLE_SIZE - 1)) Server.TABLE_SIZE 0 with
      hc | hdel
    · have := get_some_of_benign hm.entries (Server.hashmap_delete hm k').entries k
        (Server.fnv_hash k &&& (Server.TABLE_SIZE - 1)) Server.TABLE_SIZE j (by omega)
        hmatch (fun l hl => hskip l (by omega) hl)
        (fun p => Or.inl (by show Server.delete_loop _ _ _ _ _ p = _; rw [hc]))
        (by show Server.delete_loop _ _ _ _ _ _ = _; rw [hc])
      rw [this, hval]
    · obtain ⟨q, hqu, hqk, hc⟩ := hdel
      have hqj : probePos (Server.fnv_hash k &&& (Server.TABLE_SIZE - 1))
          Server.TABLE_SIZE j ≠ q := fun h => hkk (by rw [← hqk, ← h, hmatch.2])
      have := get_some_of_benign hm.entries (Server.hashmap_delete hm k').entries k
        (Server.fnv_hash k &&& (Server.TABLE_SIZE - 1)) Server.TABLE_SIZE j (by omega)
        hmatch (fun l hl => hskip l (by omega) hl)
        (fun p => by
          by_cases hp : p = q
          · refine Or.inr ⟨?_, Or.inl ?_⟩
            · show (Server.delete_loop _ _ _ _ _ p).used = true
              rw [hc, hp]
              simp [upd]
              exact hqu
            · show (Server.delete_loop _ _ _ _ _ p).deleted = true
              rw [hc, hp]
              simp [upd]
          · exact Or.inl (by
              show Server.delete_loop _ _ _ _ _ p = _
              rw [hc]
              simp [upd, hp]))
        (by
          show Server.delete_loop _ _ _ _ _ _ = _
          rw [hc]
          simp [upd, hqj])
      rw [this, hval]

/-- Helper: one standalone-table operation on a key other than `k`
preserves a successful `get k`. -/
theorem bench_get_preserved (hm : Bench.hashmap) (k v : List Nat) (op : TableOp)
    (hget : Bench.hashmap_get hm k = some v) (hne : TableOp.key op ≠ k) :
    Bench.hashmap_get (Bench.applyOp hm op) k = some v := by
  have hb : Bench.get_loop hm.entries k (Bench.fnv_hash k &&& (hm.cap - 1))
      hm.cap hm.cap 0 = some v := hget
  obtain ⟨j, hj0, hjlt, hmatch, hval, hskip⟩ := bget_loop_some hm.entries k
    (Bench.fnv_hash k &&& (hm.cap - 1)) hm.cap hm.cap 0 v hb
  cases op with
  | set k' v' =>
    have hkk : k' ≠ k := hne
    show Bench.get_loop (Bench.hashmap_set hm k' v').1.entries k
      (Bench.fnv_hash k &&& (hm.cap - 1)) hm.cap hm.cap 0 = some v
    rcases bset_loop_cases hm.entries k' v'
        (Bench.fnv_hash k' &&& (hm.cap - 1)) hm.cap hm.cap 0 none
        (fun t ht => by simp at ht) with
      hc | hins | hupd
    · have := get_some_of_benign hm.entries (Bench.hashmap_set hm k' v').1.entries k
        (Bench.fnv_hash k &&& (hm.cap - 1)) hm.cap j (by omega)
        hmatch (fun l hl => hskip l (by omega) hl)
        (fun p => Or.inl (by show (Bench.set_loop _ _ _ _ _ _ _ _).1 p = _; rw [hc]))
        (by show (Bench.set_loop _ _ _ _ _ _ _ _).1 _ = _; rw [hc])
      rw [this, hval]
    · obtain ⟨q, hq, hc⟩ := hins
      have hqj : probePos (Bench.fnv_hash k &&& (hm.cap - 1)) hm.cap j ≠ q :=
        fun h => hq (h ▸ hmatch.1)
      have := get_some_of_benign hm.entries (Bench.hashmap_set hm k' v').1.entries k
        (Bench.fnv_hash k &&& (hm.cap - 1)) hm.cap j (by omega)
        hmatch (fun l hl => hskip l (by omega) hl)
        (fun p => by
          by_cases hp : p = q
          · refine Or.inr ⟨?_, Or.inr ?_⟩
            · show ((Bench.set_loop _ _ _ _ _ _ _ _).1 p).used = true
              rw [hc, hp]
              simp [upd]
            · show ((Bench.set_loop _ _ _ _ _ _ _ _).1 p).key ≠ k
              rw [hc, hp]
              simp [upd]
              exact hkk
          · exact Or.inl (by
              show (Bench.set_loop _ _ _ _ _ _ _ _).1 p = _
              rw [hc]
              simp [upd, hp]))
        (by
          show (Bench.set_loop _ _ _ _ _ _ _ _).1 _ = _
          rw [hc]
          simp [upd, hqj])
      rw [this, hval]
    · obtain ⟨q, hq, hc⟩ := hupd
      have hqj : probePos (Bench.fnv_hash k &&& (hm.cap - 1)) hm.cap j ≠ q :=
        fun h => hkk (by rw [← hq.2, ← h, hmatch.2])
      have := get_some_of_benign hm.entries (Bench.hashmap_set hm k' v').1.entries k
        (Bench.fnv_hash k &&& (hm.cap - 1)) hm.cap j (by omega)
        hmatch (fun l hl => hskip l (by omega) hl)
        (fun p => by
          by_cases hp : p = q
          · refine Or.inr ⟨?_, Or.inr ?_⟩
            · show ((Bench.set_loop _ _ _ _ _ _ _ _).1 p).used = true
              rw [hc, hp]
              simp [upd]
              exact hq.1.1
            · show ((Bench.set_loop _ _ _ _ _ _ _ _).1 p).key ≠ k
              rw [hc, hp]
              simp [upd]
              rw [hq.2]
              exact hkk
          · exact Or.inl (by
              show (Bench.set_loop _ _ _ _ _ _ _ _).1 p = _
              rw [hc]
              simp [upd, hp]))
        (by
          show (Bench.set_loop _ _ _ _ _ _ _ _).1 _ = _
          rw [hc]
          simp [upd, hqj])
      rw [this, hval]
  | del k' =>
    have hkk : k' ≠ k := hne
    show Bench.get_loop (Bench.hashmap_delete hm k').entries k
      (Bench.fnv_hash k &&& (hm.cap - 1)) hm.cap hm.cap 0 = some v
    rcases bdel_loop_cases hm.entries k'
        (Bench.fnv_hash k' &&& (hm.cap - 1)) hm.cap hm.cap 0 with
      hc | hdel
    · have := get_some_of_benign hm.entries (Bench.hashmap_delete hm k').entries k
        (Bench.fnv_hash k &&& (hm.cap - 1)) hm.cap j (by omega)
        hmatch (fun l hl => hskip l (by omega) hl)
        (fun p => Or.inl (by show Bench.delete_loop _ _ _ _ _ _ p = _; rw [hc]))
        (by show Bench.delete_loop _ _ _ _ _ _ _ = _; rw [hc])
      rw [this, hval]
    · obtain ⟨q, hq, hc⟩ := hdel
      have hqj : probePos (Bench.fnv_hash k &&& (hm.cap - 1)) hm.cap j ≠ q :=
        fun h => hkk (by rw [← hq.2, ← h, hmatch.2])
      have := get_some_of_benign hm.entries (Bench.hashmap_delete hm k').entries k
        (Bench.fnv_hash k &&& (hm.cap - 1)) hm.cap j (by omega)
        hmatch (fun l hl => hskip l (by omega) hl)
        (fun p => by
          by_cases hp : p = q
          · refine Or.inr ⟨?_, Or.inl ?_⟩
            · show (Bench.delete_loop _ _ _ _ _ _ p).used = true
              rw [hc, hp]
              simp [upd]
            · show (Bench.delete_loop _ _ _ _ _ _ p).deleted = true
              rw [hc, hp]
              simp [upd]
          · exact Or.inl (by
              show Bench.delete_loop _ _ _ _ _ _ p = _
              rw [hc]
              simp [upd, hp]))
        (by
          show Bench.delete_loop _ _ _ _ _ _ _ = _
          rw [hc]
          simp [upd, hqj])
      rw [this, hval]

/-- C3: if `set(k, v)` succeeds then `get(k)` returns `v`, and this
continues to hold across any sequence of set/delete operations on other
keys (i.e. until `k` itself is deleted or overwritten).  Stated for both
the server table and the standalone table (the latter's insert path uses
power-of-two capacity, which `hashmap_create` always produces). -/
theorem c3_set_then_get_roundtrip :
    (∀ (hm : Server.hashmap) (k v : List Nat),
      (Server.hashmap_set hm k v).2 = true →
      Server.hashmap_get (Server.hashmap_set hm k v).1 k = some v)
    ∧ (∀ (hm : Server.hashmap) (k v : List Nat) (ops : List TableOp),
      Server.hashmap_get hm k = some v →
      (∀ op ∈ ops, TableOp.key op ≠ k) →
      Server.hashmap_get (Server.applyOps hm ops) k = some v)
    ∧ (∀ (hm : Bench.hashmap) (k v : List Nat) (m : Nat),
      hm.cap = 2 ^ m → (Bench.hashmap_set hm k v).2 = 0 →
      Bench.hashmap_get (Bench.hashmap_set hm k v).1 k = some v)
    ∧ (∀ (hm : Bench.hashmap) (k v : List Nat) (ops : List TableOp),
      Bench.hashmap_get hm k = some v →
      (∀ op ∈ ops, TableOp.key op ≠ k) →
      Bench.hashmap_get (Bench.applyOps hm ops) k = some v) := by
  refine ⟨fun hm k v h => server_set_get hm k v h, ?_,
    fun hm k v m hc h => bench_set_get hm k v m hc h, ?_⟩
  · intro hm k v ops
    induction ops generalizing hm with
    | nil => intro h _; exact h
    | cons op ops ih =>
      intro h hall
      show Server.hashmap_get (Server.applyOps (Server.applyOp hm op) ops) k = some v
      exact ih (Server.applyOp hm op)
        (server_get_preserved hm k v op h (hall op (by simp)))
        (fun o ho => hall o (by simp [ho]))
  · intro hm k v ops
    induction ops generalizing hm with
    | nil => intro h _; exact h
    | cons op ops ih =>
      intro h hall
      show Bench.hashmap_get (Bench.applyOps (Bench.applyOp hm op) ops) k = some v
      exact ih (Bench.applyOp hm op)
        (bench_get_preserved hm k v op h (hall op (by simp)))
        (fun o ho => hall o (by simp [ho]))

/-- C3 witness: concrete round trips — set `[97] ↦ [5]` in a fresh
server table, read it back, keep reading it back across operations on
key `[98]`; likewise for the standalone table with capacity
`next_pow2 3 = 4 = 2 ^ 2`. -/
theorem c3_witness :
    ((Server.hashmap_set Server.hashmap_create [97] [5]).2 = true ∧
      Server.hashmap_get (Server.hashmap_set Server.hashmap_create [97] [5]).1 [97] =
        some [5]) ∧
    Server.hashmap_get (Server.applyOps (Server.hashmap_set Server.hashmap_create [97] [5]).1
      [TableOp.set [98] [6], TableOp.del [98]]) [97] = some [5] ∧
    ((Bench.hashmap_set (Bench.hashmap_create 1) [97] [5]).2 = 0 ∧
      Bench.hashmap_get (Bench.hashmap_set (Bench.hashmap_create 1) [97] [5]).1 [97] =
        some [5]) ∧
    Bench.hashmap_get (Bench.applyOps (Bench.hashmap_set (Bench.hashmap_create 1) [97] [5]).1
      [TableOp.del [98]]) [97] = some [5] :=
  ⟨⟨by decide, c3_set_then_get_roundtrip.1 Server.hashmap_create [97] [5] (by decide)⟩,
    c3_set_then_get_roundtrip.2.1 (Server.hashmap_set Server.hashmap_create [97] [5]).1
      [97] [5] [TableOp.set [98] [6], TableOp.del [98]] (by decide) (by decide),
    ⟨by decide, c3_set_then_get_roundtrip.2.2.1 (Bench.hashmap_create 1) [97] [5] 2
      (by decide) (by decide)⟩,
    c3_set_then_get_roundtrip.2.2.2 (Bench.hashmap_set (Bench.hashmap_create 1) [97] [5]).1
      [97] [5] [TableOp.del [98]] (by decide) (by decide)⟩

/-- C5: when every slot of the probe sequence is Occupied by a different
key (no Empty slot, no Tombstone, no match), `set` of the new key leaves
the table completely unchanged.  The standalone table reports the drop
by returning `-1`; the server's `hashmap_set` is `void` in C and signals
nothing (the model's `false` merely records that no store happened). -/
theorem c5_capacity_exhaustion_drops_insert :
    (∀ (hm : Server.hashmap) (key val : List Nat),
      (∀ l, l < Server.TABLE_SIZE → hardSkip hm.entries key
        (probePos (Server.fnv_hash key &&& (Server.TABLE_SIZE - 1)) Server.TABLE_SIZE l)) →
      Server.hashmap_set hm key val = (hm, false))
    ∧ (∀ (hm : Bench.hashmap) (key val : List Nat),
      (∀ l, l < hm.cap → hardSkip hm.entries key
        (probePos (Bench.fnv_hash key &&& (hm.cap - 1)) hm.cap l)) →
      Bench.hashmap_set hm key val = (hm, -1)) := by
  constructor
  · intro hm key val h
    have hexh := sset_loop_exhaust hm.entries key val
      (Server.fnv_hash key &&& (Server.TABLE_SIZE - 1)) Server.TABLE_SIZE 0
      (fun l _ hl2 => h l (by omega))
    show (⟨(Server.set_loop hm.entries key val
        (Server.fnv_hash key &&& (Server.TABLE_SIZE - 1)) Server.TABLE_SIZE 0).1⟩,
      (Server.set_loop hm.entries key val
        (Server.fnv_hash key &&& (Server.TABLE_SIZE - 1)) Server.TABLE_SIZE 0).2) =
      ((hm : Server.hashmap), false)
    rw [hexh]
  · intro hm key val h
    have hexh := bset_loop_exhaust hm.entries key val
      (Bench.fnv_hash key &&& (hm.cap - 1)) hm.cap hm.cap 0 none
      (fun l _ hl2 => by
        obtain ⟨h1, h2, h3⟩ := h l (by omega)
        exact ⟨h1, Or.inr h3⟩)
    show (⟨(Bench.set_loop hm.entries key val
        (Bench.fnv_hash key &&& (hm.cap - 1)) hm.cap hm.cap 0 none).1, hm.cap⟩,
      (Bench.set_loop hm.entries key val
        (Bench.fnv_hash key &&& (hm.cap - 1)) hm.cap hm.cap 0 none).2) =
      ((hm : Bench.hashmap), -1)
    rw [hexh]

/-- C5 witness: a server table with all 1024 slots Occupied by key `[1]`
and a standalone table of capacity 4 likewise; `set` of the distinct key
`[2]` is dropped with the table unchanged (`-1` from the standalone
table, nothing from the server's `void` function). -/
theorem c5_witness :
    ((∀ l, l < Server.TABLE_SIZE → hardSkip fullServer.entries [2]
        (probePos (Server.fnv_hash [2] &&& (Server.TABLE_SIZE - 1)) Server.TABLE_SIZE l)) ∧
      Server.hashmap_set fullServer [2] [9] = (fullServer, false)) ∧
    ((∀ l, l < fullBench.cap → hardSkip fullBench.entries [2]
        (probePos (Bench.fnv_hash [2] &&& (fullBench.cap - 1)) fullBench.cap l)) ∧
      Bench.hashmap_set fullBench [2] [9] = (fullBench, -1)) :=
  ⟨⟨by decide, c5_capacity_exhaustion_drops_insert.1 fullServer [2] [9] (by decide)⟩,
    ⟨by decide, c5_capacity_exhaustion_drops_insert.2 fullBench [2] [9] (by decide)⟩⟩

/-- C1: evaluation at the failing input.  From a fresh server table,
`set ja [1]; set y [2]; delete ja; set y [3]` (the keys `"ja"` and `"y"`
share bucket 340) leaves TWO Occupied slots holding key `"y"`: the
reused tombstone at slot 340 (value `[3]`) and the original at slot 341
(value `[2]`).  The server's `set` reuses the tombstone before scanning
ahead for the existing key, so the claimed invariant fails. -/
theorem c1_duplicate_occupied_slots_reachable :
    matchAt dupState.entries keyY 340 ∧ matchAt dupState.entries keyY 341 ∧
      (dupState.entries 340).val = [3] ∧ (dupState.entries 341).val = [2] := by
  decide

/-- C2: evaluation at the failing input.  Continuing from `dupState`,
`delete y` tombstones only the first matching slot (340); a subsequent
`get y` then returns the stale value `[2]` from slot 341 instead of
not-found. -/
theorem c2_get_after_delete_returns_stale_value :
    tombAt dupStateDel.entries 340 ∧
      Server.hashmap_get dupStateDel keyY = some [2] := by
  decide

/-!  ## Request-handler behaviour (claims C6, C7, C10) -/

/-- Helper: the head of a non-nil `dropWhile` result fails the predicate. -/
theorem dropWhile_head_false {p : Nat → Bool} : ∀ (l : List Nat) (b : Nat)
    (rest : List Nat), l.dropWhile p = b :: rest → p b = false := by
  intro l
  induction l with
  | nil => intro b rest h; simp [List.dropWhile] at h
  | cons a tl ih =>
    intro b rest h
    by_cases hp : p a = true
    · rw [List.dropWhile_cons_of_pos hp] at h
      exact ih b rest h
    · rw [List.dropWhile_cons_of_neg hp] at h
      injection h with h1 h2
      subst h1
      revert hp
      cases p a <;> simp
  
/-- Helper: every strtok token is non-empty and free of `':'` bytes. -/
theorem toksF_tokens_wf : ∀ (fuel : Nat) (l : List Nat) (t : List Nat),
    t ∈ Handler.toksF fuel l → t ≠ [] ∧ 58 ∉ t := by
  intro fuel
  induction fuel with
  | zero => intro l t ht; simp [Handler.toksF] at ht
  | succ fuel ih =>
    intro l t ht
    cases hdrop : l.dropWhile (fun b => b == 58) with
    | nil =>
      simp only [Handler.toksF, hdrop] at ht
      simp at ht
    | cons b rest =>
      simp only [Handler.toksF, hdrop] at ht
      have hb : (b == 58) = false := dropWhile_head_false l b rest hdrop
      have hbcolon : Handler.notColon b = true := by
        simp [Handler.notColon, hb]
      rcases List.mem_cons.mp ht with hhead | htail
      · constructor
        · rw [hhead, List.takeWhile_cons_of_pos hbcolon]
          exact List.cons_ne_nil b _
        · intro hmem
          rw [hhead] at hmem
          have := List.mem_takeWhile_imp hmem
          simp [Handler.notColon] at this
      · exact ih _ t htail

/-- C6: the handler on malformed commands.  An unknown (non-empty) first
token, or `get`/`set`/`del` with missing argument tokens, causes no
table mutation and no reply.  But on an EMPTY body (request `"0:"`, or
any frame whose length field parses to 0) `strtok` returns NULL and the
C code passes it straight to `strcmp` — undefined behaviour, a crash on
a real libc — so the claim's "does not crash" fails there. -/
theorem c6_malformed_request_handling :
    (∀ hm : Server.hashmap,
      Handler.handle_pkt [48, 58] hm = (hm, Handler.PktOut.crash))
    ∧ (∀ (body : List Nat) (hm : Server.hashmap) (cmd : List Nat)
        (rest : List (List Nat)),
        Handler.tokens body = cmd :: rest → cmd ≠ Handler.getCmd →
        cmd ≠ Handler.setCmd → cmd ≠ Handler.delCmd →
        Handler.dispatch body hm = (hm, Handler.PktOut.done none))
    ∧ (∀ (body : List Nat) (hm : Server.hashmap),
        (Handler.tokens body = [Handler.getCmd] ∨
          Handler.tokens body = [Handler.setCmd] ∨
          (∃ k2, Handler.tokens body = [Handler.setCmd, k2]) ∨
          Handler.tokens body = [Handler.delCmd]) →
        Handler.dispatch body hm = (hm, Handler.PktOut.done none)) := by
  refine ⟨fun hm => rfl, ?_, ?_⟩
  · intro body hm cmd rest h hg hs hd
    simp [Handler.dispatch, h, hg, hs, hd]
  · intro body hm hcase
    rcases hcase with h | h | ⟨k2, h⟩ | h
    · simp [Handler.dispatch, h]
    · simp [Handler.dispatch, h, Handler.setCmd, Handler.getCmd]
    · simp [Handler.dispatch, h, Handler.setCmd, Handler.getCmd]
    · simp [Handler.dispatch, h, Handler.delCmd, Handler.getCmd, Handler.setCmd]

/-- C6 witness: the unknown command `"xyz"` and the argument-less
command `"get"` are both ignored with no mutation and no reply. -/
theorem c6_witness :
    Handler.dispatch [120, 121, 122] Server.hashmap_create =
      (Server.hashmap_create, Handler.PktOut.done none) ∧
    Handler.dispatch [103, 101, 116] Server.hashmap_create =
      (Server.hashmap_create, Handler.PktOut.done none) :=
  ⟨c6_malformed_request_handling.2.1 [120, 121, 122] Server.hashmap_create
      [120, 121, 122] [] (by decide) (by decide) (by decide) (by decide),
    c6_malformed_request_handling.2.2 [103, 101, 116] Server.hashmap_create
      (Or.inl (by decide))⟩

/-- C7: protocol round trips.  `"7:get:foo"` against a fresh table (so
`foo` is absent) produces no reply write; `"11:set:a:bcd"` (body only 9
bytes long — the peer closes early and the short read is tolerated)
stores `a ↦ bcd` with no reply; `"5:get:a"` on the resulting table
writes exactly the raw bytes `"bcd"` with no framing. -/
theorem c7_protocol_framing_examples :
    (Handler.handle_pkt [55, 58, 103, 101, 116, 58, 102, 111, 111]
      Server.hashmap_create).2 = Handler.PktOut.done none
    ∧ (Handler.handle_pkt [49, 49, 58, 115, 101, 116, 58, 97, 58, 98, 99, 100]
      Server.hashmap_create).2 = Handler.PktOut.done none
    ∧ (Handler.handle_pkt [53, 58, 103, 101, 116, 58, 97]
      (Handler.handle_pkt [49, 49, 58, 115, 101, 116, 58, 97, 58, 98, 99, 100]
        Server.hashmap_create).1).2 =
      Handler.PktOut.done (some [98, 99, 100]) := by
  refine ⟨by decide, by decide, by decide⟩

/-!  ## Allocation failure (claim C8) -/

/-- Helper: when the value copy fails, every path through the standalone
`set` loop returns `-1`. -/
theorem aset_loop_val_fail (ent : Nat → alloc_entry) (key val : List Nat)
    (idx cap : Nat) (okKey : Bool) : ∀ (fuel i : Nat) (ft : Option Nat),
    (AllocBench.set_loop ent key val idx cap okKey false fuel i ft).2 = -1 := by
  intro fuel
  induction fuel with
  | zero => intro i ft; rfl
  | succ fuel ih =>
    intro i ft
    have hvnone : ((if (false : Bool) = true then some val else none) :
        Option (List Nat)) = none := rfl
    by_cases hu : (ent ((idx + i) &&& (cap - 1))).used = false
    · simp only [AllocBench.set_loop]
      rw [if_pos hu, if_pos (Or.inr hvnone)]
    · by_cases hd : (ent ((idx + i) &&& (cap - 1))).deleted = true
      · simp only [AllocBench.set_loop]
        rw [if_neg hu, if_pos hd]
        exact ih (i+1) _
      · by_cases hk : (ent ((idx + i) &&& (cap - 1))).key = some key
        · simp only [AllocBench.set_loop]
          rw [if_neg hu, if_neg hd, if_pos hk, if_pos hvnone]
        · simp only [AllocBench.set_loop]
          rw [if_neg hu, if_neg hd, if_neg hk]
          exact ih (i+1) _

/-- Helper: whenever the standalone `set` reports `-1`, the only slot it
may have touched is a non-occupied one (the insert target, zeroed on
the cleanup path); occupied slots — including the update target with its
old value — are untouched. -/
theorem aset_loop_fail_untouched (ent : Nat → alloc_entry) (key val : List Nat)
    (idx cap : Nat) (okKey okVal : Bool) : ∀ (fuel i : Nat) (ft : Option Nat),
    (∀ t, ft = some t → (ent t).used = true ∧ (ent t).deleted = true) →
    (AllocBench.set_loop ent key val idx cap okKey okVal fuel i ft).2 = -1 →
    ∀ p, (AllocBench.set_loop ent key val idx cap okKey okVal fuel i ft).1 p = ent p ∨
      (¬ ((ent p).used = true ∧ (ent p).deleted = false) ∧
        (AllocBench.set_loop ent key val idx cap okKey okVal fuel i ft).1 p =
          ⟨none, none, false, false⟩) := by
  intro fuel
  induction fuel with
  | zero => intro i ft _ _ p; exact Or.inl rfl
  | succ fuel ih =>
    intro i ft hft hres p
    by_cases hu : (ent ((idx + i) &&& (cap - 1))).used = false
    · by_cases hfail : ((if okKey then some key else none) : Option (List Nat)) = none ∨
          ((if okVal then some val else none) : Option (List Nat)) = none
      · simp only [AllocBench.set_loop] at hres ⊢
        rw [if_pos hu, if_pos hfail]
        by_cases hp : p = ft.getD ((idx + i) &&& (cap - 1))
        · refine Or.inr ⟨?_, by simp [updA, hp]⟩
          cases hcase : ft with
          | none =>
            rw [hcase] at hp
            simp only [Option.getD_none] at hp
            intro hocc
            rw [hp] at hocc
            rw [hu] at hocc
            exact absurd hocc.1 (by simp)
          | some t =>
            rw [hcase] at hp
            simp only [Option.getD_some] at hp
            obtain ⟨-, htd⟩ := hft t hcase
            intro hocc
            rw [hp, htd] at hocc
            exact absurd hocc.2 (by simp)
        · exact Or.inl (by simp [updA, hp])
      · exfalso
        simp only [AllocBench.set_loop] at hres
        rw [if_pos hu, if_neg hfail] at hres
        have h0 : (0 : Int) = -1 := hres
        exact absurd h0 (by decide)
    · by_cases hd : (ent ((idx + i) &&& (cap - 1))).deleted = true
      · simp only [AllocBench.set_loop] at hres ⊢
        rw [if_neg hu, if_pos hd] at hres ⊢
        refine ih (i+1) _ ?_ hres p
        intro t ht
        by_cases hftn : ft = none
        · rw [hftn] at ht
          simp at ht
          rw [← ht]
          constructor
          · revert hu
            cases (ent ((idx + i) &&& (cap - 1))).used <;> simp
          · exact hd
        · rw [if_neg hftn] at ht
          exact hft t ht
      · by_cases hk : (ent ((idx + i) &&& (cap - 1))).key = some key
        · by_cases hv : ((if okVal then some val else none) : Option (List Nat)) = none
          · simp only [AllocBench.set_loop] at hres ⊢
            rw [if_neg hu, if_neg hd, if_pos hk, if_pos hv]
            exact Or.inl rfl
          · exfalso
            simp only [AllocBench.set_loop] at hres
            rw [if_neg hu, if_neg hd, if_pos hk, if_neg hv] at hres
            have h0 : (0 : Int) = -1 := hres
            exact absurd h0 (by decide)
        · simp only [AllocBench.set_loop] at hres ⊢
          rw [if_neg hu, if_neg hd, if_neg hk] at hres ⊢
          exact ih (i+1) ft hft hres p

/-- C8: in the standalone table, a failed key/value copy makes `set`
report `-1` to its caller, and a `-1` result never leaves a slot
Occupied with partial data: every slot is either untouched (in
particular the update target keeps its old value) or is a non-occupied
slot zeroed by the cleanup path.  The SERVER's `hashmap_set`, by
contrast, never checks `strdup`: with a failed key copy it marks the
slot Occupied with a NULL key and returns nothing (`void`) — the third
conjunct evaluates that at slot 140, the bucket of key `[97]`. -/
theorem c8_alloc_failure_slot_integrity :
    (∀ (ent : Nat → alloc_entry) (cap : Nat) (key val : List Nat) (okKey : Bool),
      (AllocBench.hashmap_set ent cap key val okKey false).2 = -1)
    ∧ (∀ (ent : Nat → alloc_entry) (cap : Nat) (key val : List Nat) (okKey okVal : Bool),
      (AllocBench.hashmap_set ent cap key val okKey okVal).2 = -1 →
      ∀ p, (AllocBench.hashmap_set ent cap key val okKey okVal).1 p = ent p ∨
        (¬ ((ent p).used = true ∧ (ent p).deleted = false) ∧
          (AllocBench.hashmap_set ent cap key val okKey okVal).1 p =
            ⟨none, none, false, false⟩))
    ∧ ((AllocServer.hashmap_set AllocServer.zero_table [97] [98] false true 140).used = true ∧
      (AllocServer.hashmap_set AllocServer.zero_table [97] [98] false true 140).key = none) := by
  refine ⟨?_, ?_, by decide⟩
  · intro ent cap key val okKey
    exact aset_loop_val_fail ent key val (Bench.fnv_hash key &&& (cap - 1)) cap okKey
      cap 0 none
  · intro ent cap key val okKey okVal hres p
    exact aset_loop_fail_untouched ent key val (Bench.fnv_hash key &&& (cap - 1)) cap
      okKey okVal cap 0 none (fun t ht => Option.noConfusion ht) hres p

/-- C8 witness: a failed value copy on a fresh standalone table of
capacity 4 returns `-1` and leaves every slot untouched or zeroed. -/
theorem c8_witness :
    (AllocBench.hashmap_set AllocServer.zero_table 4 [97] [98] true false).2 = -1 ∧
    ((AllocBench.hashmap_set AllocServer.zero_table 4 [97] [98] true false).1 2 =
        AllocServer.zero_table 2 ∨
      (¬ ((AllocServer.zero_table 2).used = true ∧
          (AllocServer.zero_table 2).deleted = false) ∧
        (AllocBench.hashmap_set AllocServer.zero_table 4 [97] [98] true false).1 2 =
          ⟨none, none, false, false⟩)) :=
  ⟨c8_alloc_failure_slot_integrity.1 AllocServer.zero_table 4 [97] [98] true,
    c8_alloc_failure_slot_integrity.2.1 AllocServer.zero_table 4 [97] [98] true false
      (by decide) 2⟩

/-- C10: protocol-level keys and values are strtok tokens, hence never
empty and never contain `':'` (consecutive delimiters collapse); a `set`
body stores as the value exactly the third token, discarding anything
from the next `':'` on; and `"set:k:"` (empty value token) mutates
nothing and writes no reply. -/
theorem c10_strtok_tokenisation :
    (∀ (body : List Nat) (t : List Nat), t ∈ Handler.tokens body → t ≠ [] ∧ 58 ∉ t)
    ∧ (∀ hm : Server.hashmap,
      Handler.dispatch [115, 101, 116, 58, 107, 58] hm = (hm, Handler.PktOut.done none))
    ∧ (∀ (body : List Nat) (hm : Server.hashmap) (k v : List Nat)
        (rest : List (List Nat)),
        Handler.tokens body = Handler.setCmd :: k :: v :: rest →
        Handler.dispatch body hm = ((Server.hashmap_set hm k v).1, Handler.PktOut.done none))
    ∧ Server.hashmap_get
        (Handler.dispatch [115, 101, 116, 58, 97, 58, 98, 58, 99] Server.hashmap_create).1
        [97] = some [98] := by
  refine ⟨fun body t ht => toksF_tokens_wf _ body t ht, fun hm => rfl, ?_, by decide⟩
  intro body hm k v rest h
  simp [Handler.dispatch, h, Handler.setCmd, Handler.getCmd]

/-- C10 witness: the tokens of `"set:k:"` are exactly `set` and `k`
(both non-empty, colon-free), and `"set:a:b:c"` dispatches as
`set a b`. -/
theorem c10_witness :
    ([107] ≠ [] ∧ 58 ∉ [107]) ∧
    Handler.dispatch [115, 101, 116, 58, 97, 58, 98] Server.hashmap_create =
      ((Server.hashmap_set Server.hashmap_create [97] [98]).1, Handler.PktOut.done none) :=
  ⟨c10_strtok_tokenisation.1 [115, 101, 116, 58, 107, 58] [107] (by decide),
    c10_strtok_tokenisation.2.2.1 [115, 101, 116, 58, 97, 58, 98] Server.hashmap_create
      [97] [98] [] (by decide)⟩
